import Mathlib

/-!
Verification development for the `job_cv_extractor` content-resolution pipeline
(modules `extractor/html_parser.py`, `extractor/source_detector.py`,
`extractor/url_resolver.py`, `extractor/content_cleaner.py`).

Modeling conventions:
* a Python `str` is modeled as `List Char`;
* a Python value that may be `None` is modeled as `Option`;
* Python code that may raise is modeled as `Except String`;
* the JSON values produced by `json.loads` are modeled by the inductive `Json`;
* library calls (`json.loads`, `urllib.parse.urlparse`, `urllib.parse.parse_qs`,
  `re.search` on the concrete patterns of the repository) are modeled faithfully
  for the ASCII inputs the claims are about; divergences for exotic unicode
  corner cases are noted next to each definition.
-/

namespace CV

/-- Python truthiness-style helpers and small character utilities. -/
def isDig (c : Char) : Bool := 48 ≤ c.toNat && c.toNat ≤ 57

/-- ASCII lower-casing of one character, as `str.lower` does on ASCII input. -/
def lowerChar (c : Char) : Char :=
  if 64 < c.toNat ∧ c.toNat < 91 then Char.ofNat (c.toNat + 32) else c

/-- ASCII lower-casing of a whole string (`str.lower`). -/
def lowerStr (cs : List Char) : List Char := cs.map lowerChar

/-- Test whether `pre` is an initial segment of `cs`. -/
def leadsWith : List Char → List Char → Bool
  | [], _ => true
  | _ :: _, [] => false
  | a :: pre, b :: cs => a == b && leadsWith pre cs

/-- Python's substring test `needle in hay`. -/
def containsSub (needle : List Char) : List Char → Bool
  | [] => leadsWith needle []
  | c :: t => leadsWith needle (c :: t) || containsSub needle t

/-- Python whitespace for `str.strip()` (ASCII subset). -/
def pyWs (c : Char) : Bool :=
  c = ' ' || c = '\t' || c = '\n' || c = '\r' || c = Char.ofNat 11 || c = Char.ofNat 12

/-- Python's `str.strip()` with no arguments (ASCII whitespace). -/
def pyStrip (cs : List Char) : List Char :=
  ((cs.dropWhile pyWs).reverse.dropWhile pyWs).reverse

/-- Values of `json.loads`: Python `None`/`bool`/number/`str`/`list`/`dict`.
Numbers keep their source literal; the claims under verification depend only on
which values are parsed, not on numeric arithmetic. -/
inductive Json where
  | null
  | bool (b : Bool)
  | num (raw : List Char)
  | str (s : List Char)
  | arr (items : List Json)
  | obj (fields : List (List Char × Json))

/-- JSON whitespace accepted between tokens by `json.loads`. -/
def jsonWs (c : Char) : Bool := c = ' ' || c = '\t' || c = '\n' || c = '\r'

/-- Drop leading JSON whitespace. -/
def skipWs (cs : List Char) : List Char := cs.dropWhile jsonWs

/-- Numeric value of one hexadecimal digit. -/
def hexVal (c : Char) : Option Nat :=
  if 48 ≤ c.toNat ∧ c.toNat ≤ 57 then some (c.toNat - 48)
  else if 97 ≤ c.toNat ∧ c.toNat ≤ 102 then some (c.toNat - 87)
  else if 65 ≤ c.toNat ∧ c.toNat ≤ 70 then some (c.toNat - 55)
  else none

/-- Read four hexadecimal digits (the `XXXX` of a `\uXXXX` escape). -/
def parseHex4 (cs : List Char) : Option (Nat × List Char) :=
  match cs with
  | a :: b :: c :: d :: rest =>
    match hexVal a, hexVal b, hexVal c, hexVal d with
    | some x, some y, some z, some w => some (((x * 16 + y) * 16 + z) * 16 + w, rest)
    | _, _, _, _ => none
  | _ => none

/-- Translation of a simple backslash escape inside a JSON string. -/
def escChar (e : Char) : Option Char :=
  if e = '"' then some '"'
  else if e = '\\' then some '\\'
  else if e = '/' then some '/'
  else if e = 'b' then some (Char.ofNat 8)
  else if e = 'f' then some (Char.ofNat 12)
  else if e = 'n' then some '\n'
  else if e = 'r' then some '\r'
  else if e = 't' then some '\t'
  else none

/-- Body of a JSON string literal, after the opening quote (strict mode of
`json.loads`: raw control characters are rejected). Surrogate pairs in `\u`
escapes are combined as Python does; a lone surrogate (representable in a
Python `str` but not in a Lean `Char`) degrades to `Char.ofNat`'s default. -/
def parseJStr (fuel : Nat) (cs : List Char) : Option (List Char × List Char) :=
  match fuel with
  | 0 => none
  | fuel + 1 =>
    match cs with
    | [] => none
    | '"' :: rest => some ([], rest)
    | '\\' :: 'u' :: rest =>
      match parseHex4 rest with
      | none => none
      | some (u, rest2) =>
        if 55296 ≤ u ∧ u < 56320 then
          match rest2 with
          | '\\' :: 'u' :: rest3 =>
            match parseHex4 rest3 with
            | some (v, rest4) =>
              if 56320 ≤ v ∧ v < 57344 then
                (parseJStr fuel rest4).map
                  (fun p => (Char.ofNat (65536 + (u - 55296) * 1024 + (v - 56320)) :: p.1, p.2))
              else (parseJStr fuel rest2).map (fun p => (Char.ofNat u :: p.1, p.2))
            | none => (parseJStr fuel rest2).map (fun p => (Char.ofNat u :: p.1, p.2))
          | _ => (parseJStr fuel rest2).map (fun p => (Char.ofNat u :: p.1, p.2))
        else (parseJStr fuel rest2).map (fun p => (Char.ofNat u :: p.1, p.2))
    | '\\' :: e :: rest =>
      match escChar e with
      | some c => (parseJStr fuel rest).map (fun p => (c :: p.1, p.2))
      | none => none
    | c :: rest =>
      if c.toNat < 32 then none
      else (parseJStr fuel rest).map (fun p => (c :: p.1, p.2))

/-- Integer part of a JSON number: `0` or a nonzero digit followed by digits
(leading zeros are rejected, as in `json.loads`). -/
def parseIntPart (cs : List Char) : Option (List Char × List Char) :=
  match cs with
  | '0' :: rest => some (['0'], rest)
  | c :: rest =>
    if isDig c ∧ c ≠ '0' then some (c :: rest.takeWhile isDig, rest.dropWhile isDig)
    else none
  | [] => none

/-- A JSON number literal, returned as its raw character run, mirroring the
`NUMBER_RE` scanner of the `json` module. -/
def parseNum (cs : List Char) : Option (List Char × List Char) :=
  let sp := match cs with | '-' :: r => (['-'], r) | _ => (([] : List Char), cs)
  match parseIntPart sp.2 with
  | none => none
  | some (ip, cs2) =>
    let fp :=
      match cs2 with
      | '.' :: r =>
        let d := r.takeWhile isDig
        if d = [] then (([] : List Char), cs2) else ('.' :: d, r.dropWhile isDig)
      | _ => ([], cs2)
    let ep :=
      match fp.2 with
      | e :: r =>
        if e = 'e' ∨ e = 'E' then
          let sg := match r with
                    | s :: r2 => if s = '+' ∨ s = '-' then ([s], r2) else (([] : List Char), s :: r2)
                    | [] => ([], ([] : List Char))
          let d := sg.2.takeWhile isDig
          if d = [] then (([] : List Char), fp.2)
          else (e :: (sg.1 ++ d), sg.2.dropWhile isDig)
        else ([], fp.2)
      | [] => ([], fp.2)
    some (sp.1 ++ ip ++ fp.1 ++ ep.1, ep.2)

mutual

/-- One JSON value, mirroring the scanner of `json.loads` (with its default
`allow_nan`, which also accepts `NaN`, `Infinity` and `-Infinity`). -/
def parseVal (fuel : Nat) (cs0 : List Char) : Option (Json × List Char) :=
  match fuel with
  | 0 => none
  | fuel + 1 =>
    let cs := skipWs cs0
    match cs with
    | 'n' :: 'u' :: 'l' :: 'l' :: rest => some (.null, rest)
    | 't' :: 'r' :: 'u' :: 'e' :: rest => some (.bool true, rest)
    | 'f' :: 'a' :: 'l' :: 's' :: 'e' :: rest => some (.bool false, rest)
    | 'N' :: 'a' :: 'N' :: rest => some (.num ['N', 'a', 'N'], rest)
    | 'I' :: 'n' :: 'f' :: 'i' :: 'n' :: 'i' :: 't' :: 'y' :: rest =>
      some (.num "Infinity".data, rest)
    | '-' :: 'I' :: 'n' :: 'f' :: 'i' :: 'n' :: 'i' :: 't' :: 'y' :: rest =>
      some (.num "-Infinity".data, rest)
    | '"' :: rest => (parseJStr (rest.length + 1) rest).map (fun p => (.str p.1, p.2))
    | '[' :: rest => (parseArr fuel rest).map (fun p => (.arr p.1, p.2))
    | '{' :: rest => (parseObj fuel rest).map (fun p => (.obj p.1, p.2))
    | _ => (parseNum cs).map (fun p => (.num p.1, p.2))

/-- Array body after `[`. -/
def parseArr (fuel : Nat) (cs : List Char) : Option (List Json × List Char) :=
  match fuel with
  | 0 => none
  | fuel + 1 =>
    match skipWs cs with
    | ']' :: rest => some ([], rest)
    | _ => parseArrLoop fuel cs

/-- Comma-separated array items. -/
def parseArrLoop (fuel : Nat) (cs : List Char) : Option (List Json × List Char) :=
  match fuel with
  | 0 => none
  | fuel + 1 =>
    match parseVal fuel cs with
    | none => none
    | some (v, rest) =>
      match skipWs rest with
      | ']' :: r => some ([v], r)
      | ',' :: r => (parseArrLoop fuel r).map (fun p => (v :: p.1, p.2))
      | _ => none

/-- Object body after `{`. -/
def parseObj (fuel : Nat) (cs : List Char) : Option (List (List Char × Json) × List Char) :=
  match fuel with
  | 0 => none
  | fuel + 1 =>
    match skipWs cs with
    | '}' :: rest => some ([], rest)
    | _ => parseObjLoop fuel cs

/-- Comma-separated `"key": value` members (keys must be strings). -/
def parseObjLoop (fuel : Nat) (cs : List Char) : Option (List (List Char × Json) × List Char) :=
  match fuel with
  | 0 => none
  | fuel + 1 =>
    match skipWs cs with
    | '"' :: r =>
      match parseJStr (r.length + 1) r with
      | none => none
      | some (k, r2) =>
        match skipWs r2 with
        | ':' :: r4 =>
          match parseVal fuel r4 with
          | none => none
          | some (v, r5) =>
            match skipWs r5 with
            | '}' :: r7 => some ([(k, v)], r7)
            | ',' :: r7 => (parseObjLoop fuel r7).map (fun p => ((k, v) :: p.1, p.2))
            | _ => none
        | _ => none
    | _ => none

end

/-- Python's `json.loads`: a full document, with nothing but whitespace allowed
after the value. `none` models `json.JSONDecodeError`. The fuel is ample: every
recursion level consumes at least one input character. -/
def jsonLoads (cs : List Char) : Option Json :=
  match parseVal (4 * cs.length + 4) cs with
  | some (j, rest) => if skipWs rest = [] then some j else none
  | none => none

/-- Zero test on a JSON number literal (Python numeric falsiness: `0`, `0.0`,
`-0`, `0e7` are all falsy; `NaN` and `Infinity` are truthy). -/
def numIsZero (raw : List Char) : Bool :=
  let noSign := match raw with | '-' :: r => r | _ => raw
  let mant := noSign.takeWhile (fun c => isDig c || c = '.')
  !mant.isEmpty && mant.all (fun c => c = '0' || c = '.')

/-- Python truthiness of a `json.loads` value. -/
def truthy : Json → Bool
  | .null => false
  | .bool b => b
  | .num raw => !numIsZero raw
  | .str s => !s.isEmpty
  | .arr xs => !xs.isEmpty
  | .obj fs => !fs.isEmpty

/-- Python `a or b` on two values. -/
def pyOr (a b : Json) : Json := if truthy a then a else b

/-- Dictionary lookup `d.get(k)` / `d[k]`. JSON objects with duplicate keys
become Python dicts where the last occurrence wins, so the scan is from the
rear. -/
def getField (fs : List (List Char × Json)) (k : List Char) : Option Json :=
  match fs with
  | [] => none
  | (k2, v) :: rest =>
    match getField rest k with
    | some v2 => some v2
    | none => if k2 = k then some v else none

/-- Concatenate pieces with a separator, as `sep.join(pieces)`. -/
def joinWith (sep : List Char) : List (List Char) → List Char
  | [] => []
  | [x] => x
  | x :: y :: xs => x ++ sep ++ joinWith sep (y :: xs)

mutual

/-- Python `repr` of a `json.loads` value. String quoting is simplified (always
a plain single-quote wrapping, no escape refinement); the development only ever
relies on these renderings being non-empty. -/
def pyRepr : Json → List Char
  | .null => "None".data
  | .bool true => "True".data
  | .bool false => "False".data
  | .num raw => raw
  | .str s => Char.ofNat 39 :: s ++ [Char.ofNat 39]
  | .arr xs => '[' :: joinWith ", ".data (reprList xs) ++ [']']
  | .obj fs => '{' :: joinWith ", ".data (reprFields fs) ++ ['}']

/-- Renderings of the items of a list. -/
def reprList : List Json → List (List Char)
  | [] => []
  | x :: xs => pyRepr x :: reprList xs

/-- Renderings of the members of a dict. -/
def reprFields : List (List Char × Json) → List (List Char)
  | [] => []
  | (k, v) :: fs =>
    (Char.ofNat 39 :: k ++ [Char.ofNat 39] ++ ": ".data ++ pyRepr v) :: reprFields fs

end

/-- Python `str` of a `json.loads` value (`str` is `repr` except on strings).
Numbers render as their source literal; Python would first convert to
`int`/`float` (e.g. `str(5e3)` is `'5000.0'`), a divergence that never affects
the claims because only emptiness of these renderings matters. -/
def pyStr : Json → List Char
  | .str s => s
  | j => pyRepr j

/-- Python membership `needle in t` for the shapes `@type` can take: substring
test on a `str`, element equality on a `list`, key membership on a `dict`, and
`TypeError` otherwise. -/
def pyInStr (needle : List Char) (t : Json) : Except String Bool :=
  match t with
  | .str s => .ok (containsSub needle s)
  | .arr xs => .ok (xs.any (fun x => match x with | .str s => s == needle | _ => false))
  | .obj fs => .ok (fs.any (fun p => p.1 == needle))
  | _ => .error "TypeError: argument is not iterable"

/-- Helper for `_is_job_posting` on a list-valued `@type`:
`any('JobPosting' in t for t in ts)`, which can raise on a non-container item. -/
def anyJPIn : List Json → Except String Bool
  | [] => .ok false
  | t :: ts =>
    match pyInStr "JobPosting".data t with
    | .error e => .error e
    | .ok true => .ok true
    | .ok false => anyJPIn ts

/-- html_parser._is_job_posting. Non-dicts are rejected; `@type` defaults to
`''`; string `@type` uses substring containment; list `@type` tests each item
(raising `TypeError` when an item is not a container); other shapes are `False`. -/
def isJobPostingE (j : Json) : Except String Bool :=
  match j with
  | .obj fs =>
    match (getField fs "@type".data).getD (.str []) with
    | .str t => .ok (containsSub "JobPosting".data t)
    | .arr ts => anyJPIn ts
    | _ => .ok false
  | _ => .ok false

/-- First of the sub-keys `@value`, `name`, `value` present in a dict-shaped
field value (membership test, not truthiness). -/
def firstSubKey (sub : List (List Char × Json)) : Option Json :=
  match getField sub "@value".data with
  | some v => some v
  | none =>
    match getField sub "name".data with
    | some v => some v
    | none => getField sub "value".data

/-- html_parser._extract_value: first truthy value among `keys`; strings are
stripped, dict values go through the sub-keys, lists join their truthy items
with `', '`; other shapes fall through to the next key. -/
def extractValue (fs : List (List Char × Json)) : List (List Char) → Option (List Char)
  | [] => none
  | k :: keys =>
    match getField fs k with
    | some v =>
      if truthy v then
        match v with
        | .str s => some (pyStrip s)
        | .obj sub =>
          match firstSubKey sub with
          | some sv => some (pyStrip (pyStr sv))
          | none => extractValue fs keys
        | .arr xs => some (joinWith ", ".data ((xs.filter truthy).map pyStr))
        | _ => extractValue fs keys
      else extractValue fs keys
    | none => extractValue fs keys

/-- html_parser._extract_company: `hiringOrganization` as bare value, string,
or dict with `name` / `legalName`. The result can be any JSON value (the code
returns `org.get('name') or org.get('legalName')` unchecked). -/
def extractCompany (fs : List (List Char × Json)) : Json :=
  match getField fs "hiringOrganization".data with
  | none => .null
  | some org =>
    if !truthy org then .null
    else
      match org with
      | .str s => .str s
      | .obj ofs =>
        pyOr ((getField ofs "name".data).getD .null) ((getField ofs "legalName".data).getD .null)
      | _ => .null

/-- Address-part keys scanned by `_parse_location_object`, in order. -/
def locPartKeys : List (List Char) :=
  ["streetAddress".data, "addressLocality".data, "addressRegion".data,
   "postalCode".data, "addressCountry".data]

/-- Parts of a structured address (`_parse_location_object` inner loop). -/
def locParts (afs : List (List Char × Json)) : List (List Char) :=
  locPartKeys.filterMap (fun k =>
    match getField afs k with
    | none => none
    | some val =>
      if truthy val then
        match val with
        | .obj vfs => some (pyStr ((getField vfs "name".data).getD (.str (pyStr val))))
        | _ => some (pyStr val)
      else none)

/-- html_parser._parse_location_object. The result can be a non-string value
(the trailing `return loc.get('name')`). -/
def parseLocationObject (loc : Json) : Json :=
  match loc with
  | .obj lfs =>
    let address := (getField lfs "address".data).getD .null
    if truthy address then
      match address with
      | .str s => .str s
      | .obj afs =>
        let parts := locParts afs
        if parts.isEmpty then .null else .str (joinWith ", ".data parts)
      | _ => (getField lfs "name".data).getD .null
    else (getField lfs "name".data).getD .null
  | _ => if truthy loc then .str (pyStr loc) else .null

/-- Check that every value is a string (what `'; '.join` requires; a non-string
item makes the join raise `TypeError`). -/
def allStrs : List Json → Option (List (List Char))
  | [] => some []
  | .str s :: rest => (allStrs rest).map (s :: ·)
  | _ :: _ => none

/-- html_parser._extract_location. In the list shape, `'; '.join` raises when
`_parse_location_object` returned a non-string truthy value for some element. -/
def extractLocation (fs : List (List Char × Json)) : Except String Json :=
  match getField fs "jobLocation".data with
  | none => .ok .null
  | some location =>
    if !truthy location then .ok .null
    else
      match location with
      | .str s => .ok (.str s)
      | .arr locs =>
        let locStrs := (locs.map parseLocationObject).filter truthy
        if locStrs.isEmpty then .ok .null
        else
          match allStrs locStrs with
          | some ss => .ok (.str (joinWith "; ".data ss))
          | none => .error "TypeError: sequence item: expected str instance"
      | .obj _ => .ok (parseLocationObject location)
      | _ => .ok .null

/-- Thousands grouping of the digits of a reversed digit run (helper for the
`{value:,}` format specifier). -/
def g3 : Nat → List Char → List Char
  | _, [] => []
  | k, c :: cs => c :: (if k % 3 = 0 ∧ cs ≠ [] then ',' :: g3 (k + 1) cs else g3 (k + 1) cs)

/-- Insert `,` thousands separators into a digit run. -/
def group3 (ds : List Char) : List Char := (g3 1 ds.reverse).reverse

/-- Format `{v:,}`: defined for numbers (grouping the integer digits of the
literal; Python would group the converted numeric value, which only differs on
exponent notation) and for bools (formatted as the integers 0/1); any other
shape raises (`ValueError`/`TypeError`), which `none` models. -/
def commaFmt : Json → Option (List Char)
  | .num raw =>
    let sp := match raw with | '-' :: r => (['-'], r) | _ => (([] : List Char), raw)
    some (sp.1 ++ group3 (sp.2.takeWhile isDig) ++ sp.2.dropWhile isDig)
  | .bool b => some (if b then ['1'] else ['0'])
  | _ => none

/-- html_parser._extract_salary. The f-string `{min_val:,}` raises when the
bound is not a number, which skips the whole JSON-LD block upstream. -/
def extractSalary (fs : List (List Char × Json)) : Except String Json :=
  let salary := pyOr ((getField fs "baseSalary".data).getD .null)
                     ((getField fs "estimatedSalary".data).getD .null)
  if !truthy salary then .ok .null
  else
    match salary with
    | .str s => .ok (.str s)
    | .obj sfs =>
      let value := (getField sfs "value".data).getD .null
      let currency := (getField sfs "currency".data).getD (.str "USD".data)
      match value with
      | .obj vfs =>
        let minV := (getField vfs "minValue".data).getD .null
        let maxV := (getField vfs "maxValue".data).getD .null
        let unit := (getField vfs "unitText".data).getD (.str "YEAR".data)
        if truthy minV ∧ truthy maxV then
          match commaFmt minV, commaFmt maxV with
          | some mn, some mx =>
            .ok (.str (pyStr currency ++ ' ' :: mn ++ " - ".data ++ mx ++ " per ".data ++ pyStr unit))
          | _, _ => .error "ValueError: cannot format"
        else if truthy minV then
          match commaFmt minV with
          | some mn => .ok (.str (pyStr currency ++ ' ' :: mn ++ "+ per ".data ++ pyStr unit))
          | none => .error "ValueError: cannot format"
        else .ok .null
      | _ =>
        if truthy value then .ok (.str (pyStr currency ++ ' ' :: pyStr value)) else .ok .null
    | _ => .ok .null

/-- html_parser._extract_skills. -/
def extractSkills (fs : List (List Char × Json)) : List (List Char) :=
  let skills := pyOr ((getField fs "skills".data).getD .null)
                     ((getField fs "qualifications".data).getD .null)
  if !truthy skills then []
  else
    match skills with
    | .str s => [s]
    | .arr xs => (xs.filter truthy).map pyStr
    | _ => []

/-- Turn an optional extracted string back into a record value. -/
def optStrJ : Option (List Char) → Json
  | none => .null
  | some s => .str s

/-- The twelve entries of the `normalized` dict literal of
`_normalize_job_posting`, given the already-extracted location and salary. -/
def normFields (fs : List (List Char × Json)) (loc sal : Json) : List (List Char × Json) :=
  [("title".data, optStrJ (extractValue fs ["title".data, "name".data])),
   ("description".data, optStrJ (extractValue fs ["description".data])),
   ("company".data, extractCompany fs),
   ("location".data, loc),
   ("employment_type".data, optStrJ (extractValue fs ["employmentType".data])),
   ("date_posted".data, optStrJ (extractValue fs ["datePosted".data])),
   ("valid_through".data, optStrJ (extractValue fs ["validThrough".data])),
   ("salary".data, sal),
   ("experience".data, optStrJ (extractValue fs ["experienceRequirements".data])),
   ("education".data, optStrJ (extractValue fs ["educationRequirements".data])),
   ("skills".data, .arr ((extractSkills fs).map .str)),
   ("industry".data, optStrJ (extractValue fs ["industry".data]))]

/-- html_parser._normalize_job_posting: build the twelve-field dict and keep
only truthy fields. Location and salary extraction can raise (evaluated in the
dict literal's order), which aborts the block upstream. -/
def normalizeJobPosting (j : Json) : Except String (List (List Char × Json)) :=
  match j with
  | .obj fs =>
    (extractLocation fs).bind (fun loc =>
      (extractSalary fs).map (fun sal => (normFields fs loc sal).filter (fun p => truthy p.2)))
  | _ => .error "AttributeError"

/-- Scan a list of JSON-LD items for the first `JobPosting` (the inner loops of
`extract_schema_job_posting`); a raising `_is_job_posting` aborts the block. -/
def findJP : List Json → Except String (Option Json)
  | [] => .ok none
  | x :: xs =>
    match isJobPostingE x with
    | .error e => .error e
    | .ok true => .ok (some x)
    | .ok false => findJP xs

/-- The three shapes one parsed block can have in `extract_schema_job_posting`:
a list of items, a single dict (consulting `@graph` when the dict itself is not
a `JobPosting`), or a scalar (no match). Iterating a string or dict `@graph`
yields strings, which are never job postings; iterating a scalar raises. -/
def scanStructure (j : Json) : Except String (Option Json) :=
  match j with
  | .arr items => findJP items
  | .obj fs =>
    match isJobPostingE j with
    | .error e => .error e
    | .ok true => .ok (some j)
    | .ok false =>
      match getField fs "@graph".data with
      | none => .ok none
      | some (.arr items) => findJP items
      | some (.str _) => .ok none
      | some (.obj _) => .ok none
      | some _ => .error "TypeError: not iterable"
  | _ => .ok none

/-- The JobPosting item a block locates: parse the block, scan it, and report
the first item whose `@type` contains `JobPosting`, provided neither of those
steps raises (a parse failure or an exception leaves the block without a
located item). -/
def blockJobPostingItem (b : List Char) : Option Json :=
  match jsonLoads b with
  | none => none
  | some j =>
    match scanStructure j with
    | .ok (some item) => some item
    | _ => none

/-- Processing of one `<script type="application/ld+json">` payload: locate a
`JobPosting` item (parse failures and scan exceptions locate nothing) and
normalize it (a normalization exception also discards the block); `none` makes
the Python loop continue with the next block. -/
def processBlock (content : List Char) : Option (List (List Char × Json)) :=
  (blockJobPostingItem content).bind (fun item => (normalizeJobPosting item).toOption)

/-- html_parser.extract_schema_job_posting, taking the JSON-LD script payloads
in document order (the `soup.find_all('script', type='application/ld+json')`
tag discovery is outside the model). -/
def extract_schema_job_posting (blocks : List (List Char)) :
    Option (List (List Char × Json)) :=
  blocks.findSome? processBlock

/-! urllib.parse: the pieces of `urlparse`/`parse_qs` the repository relies on. -/

/-- Characters `urlsplit` removes anywhere in the URL before parsing. -/
def badUrlChar (c : Char) : Bool := c = '\t' || c = '\r' || c = '\n'

/-- Removal pass over the raw URL. -/
def removeUnsafe (cs : List Char) : List Char := cs.filter (fun c => !badUrlChar c)

/-- Split at the first occurrence of `t`, if any. -/
def splitAtFirst (t : Char) : List Char → Option (List Char × List Char)
  | [] => none
  | c :: cs =>
    if c = t then some ([], cs)
    else (splitAtFirst t cs).map (fun p => (c :: p.1, p.2))

/-- Split at the first occurrence of `t`; everything is "before" when absent. -/
def splitAtFirstD (t : Char) (cs : List Char) : List Char × List Char :=
  (splitAtFirst t cs).getD (cs, [])

/-- Split at the last occurrence of `t`, if any. -/
def splitAtLast (t : Char) : List Char → Option (List Char × List Char)
  | [] => none
  | c :: cs =>
    match splitAtLast t cs with
    | some p => some (c :: p.1, p.2)
    | none => if c = t then some ([], cs) else none

/-- ASCII letter test (`url[0].isascii() and url[0].isalpha()`). -/
def isAsciiAlpha (c : Char) : Bool :=
  (65 ≤ c.toNat && c.toNat ≤ 90) || (97 ≤ c.toNat && c.toNat ≤ 122)

/-- Membership in urllib's `scheme_chars`. -/
def isSchemeChar (c : Char) : Bool :=
  isAsciiAlpha c || isDig c || c = '+' || c = '-' || c = '.'

/-- Scheme recognition of `urlsplit`: the text before the first `:` must be
non-empty, start with an ASCII letter and consist of scheme characters; the
scheme is returned lower-cased. -/
def schemeSplit (cs : List Char) : List Char × List Char :=
  match splitAtFirst ':' cs with
  | none => ([], cs)
  | some (pre, post) =>
    match pre with
    | [] => ([], cs)
    | c0 :: _ => if isAsciiAlpha c0 && pre.all isSchemeChar then (lowerStr pre, post) else ([], cs)

/-- Characters ending the netloc run. -/
def urlNetlocEnd (c : Char) : Bool := c = '/' || c = '?' || c = '#'

/-- Result of `urlparse` (the `params` component is dropped from the model: the
repository never reads it, and `path` already excludes it). -/
structure UrlParts where
  scheme : List Char
  netloc : List Char
  path : List Char
  query : List Char
  fragment : List Char
deriving Repr, DecidableEq

/-- Fragment/query split applied to what remains after the netloc: fragment
first (at the first `#`), then query (at the first `?`). -/
def fragQuerySplit (scheme nl rest2 : List Char) : UrlParts :=
  ⟨scheme, nl,
    (splitAtFirstD '?' (splitAtFirstD '#' rest2).1).1,
    (splitAtFirstD '?' (splitAtFirstD '#' rest2).1).2,
    (splitAtFirstD '#' rest2).2⟩

/-- Netloc handling of `urlsplit` after `//`: the bracket validity check, then
the fragment/query split. -/
def urlsplitNetlocSub (scheme nl rest2 : List Char) : Except String UrlParts :=
  if nl.contains '[' ≠ nl.contains ']' then .error "Invalid IPv6 URL"
  else .ok (fragQuerySplit scheme nl rest2)

/-- Body of `urlsplit` after the scheme has been removed. -/
def urlsplitSub (scheme rest : List Char) : Except String UrlParts :=
  if rest.take 2 = ['/', '/'] then
    urlsplitNetlocSub scheme
      ((rest.drop 2).takeWhile (fun c => !urlNetlocEnd c))
      ((rest.drop 2).dropWhile (fun c => !urlNetlocEnd c))
  else .ok (fragQuerySplit scheme [] rest)

/-- urllib's `urlsplit`: strip tab/CR/LF, find the scheme, take the netloc
after `//` up to `/?#` (raising `ValueError` on unbalanced square brackets),
then split off the fragment at the first `#` and the query at the first `?`. -/
def urlsplitPy (cs0 : List Char) : Except String UrlParts :=
  urlsplitSub (schemeSplit (removeUnsafe cs0)).1 (schemeSplit (removeUnsafe cs0)).2

/-- Part of `_splitparams` after the last `/` has been located: cut the final
segment at its first `;`. -/
def pySplitSemi (p0 a b : List Char) : List Char :=
  match splitAtFirst ';' b with
  | some q => a ++ '/' :: q.1
  | none => p0

/-- Part of `_splitparams` for a path with no `/`: cut at the first `;`. -/
def pySplitNoSlash (p0 : List Char) : List Char :=
  match splitAtFirst ';' p0 with
  | some q => q.1
  | none => p0

/-- urllib's `_splitparams` on a path known to contain `;`: cut at the first
`;` after the last `/` (or at the first `;` when there is no `/`). -/
def pySplitParams (p : List Char) : List Char :=
  match splitAtLast '/' p with
  | some ab => pySplitSemi p ab.1 ab.2
  | none => pySplitNoSlash p

/-- Schemes for which `urlparse` splits path parameters. -/
def usesParams : List (List Char) :=
  ["".data, "ftp".data, "hdl".data, "prospero".data, "http".data, "imap".data,
   "https".data, "shttp".data, "rtsp".data, "rtsps".data, "rtspu".data, "sip".data,
   "sips".data, "snews".data, "svn".data, "svn+ssh".data, "sftp".data, "nfs".data,
   "git".data, "git+ssh".data]

/-- urllib's `urlparse`. -/
def urlparsePy (cs : List Char) : Except String UrlParts :=
  match urlsplitPy cs with
  | .error e => .error e
  | .ok sp =>
    if usesParams.contains sp.scheme ∧ sp.path.contains ';' then
      .ok { sp with path := pySplitParams sp.path }
    else .ok sp

/-- Percent-decoding. Python decodes the percent byte sequence as UTF-8 with
`errors='replace'`; the model maps each byte to its code point, which agrees on
all ASCII input (the only input the claims exercise). -/
def unquoteHex : List Char → List Char
  | '%' :: a :: b :: rest =>
    match hexVal a, hexVal b with
    | some x, some y => Char.ofNat (16 * x + y) :: unquoteHex rest
    | _, _ => '%' :: unquoteHex (a :: b :: rest)
  | c :: rest => c :: unquoteHex rest
  | [] => []

/-- urllib's `unquote_plus`: `+` becomes a space, then percent-decode. -/
def unquotePlus (cs : List Char) : List Char :=
  unquoteHex (cs.map (fun c => if c = '+' then ' ' else c))

/-- Python's `str.split(sep)` for a one-character separator. -/
def splitOnChar (t : Char) : List Char → List (List Char)
  | [] => [[]]
  | c :: cs =>
    if c = t then [] :: splitOnChar t cs
    else
      match splitOnChar t cs with
      | [] => [[c]]
      | g :: gs => (c :: g) :: gs

/-- urllib's `parse_qsl` with its defaults: split on `&`, skip empty chunks,
skip chunks without `=` and chunks with an empty value (`keep_blank_values`
is false), unquote names and values. -/
def parse_qsl (qs : List Char) : List (List Char × List Char) :=
  (splitOnChar '&' qs).filterMap (fun nv =>
    if nv.isEmpty then none
    else
      match splitAtFirst '=' nv with
      | none => none
      | some (n, v) => if v.isEmpty then none else some (unquotePlus n, unquotePlus v))

/-- Key membership in the `parse_qs` dict. -/
def qsHasKey (k : List Char) (qp : List (List Char × List Char)) : Bool :=
  qp.any (fun p => p.1 == k)

/-- `query_params[k][0]`: the first value listed for `k` (`parse_qs` groups
values in encounter order). -/
def qsFirst (k : List Char) (qp : List (List Char × List Char)) : Option (List Char) :=
  (qp.find? (fun p => p.1 == k)).map (·.2)

/-! source_detector.py -/

/-- Matcher for the regex `[?&]gh_jid=\d+` (searched in the lowered URL). -/
def ghJidPat : List Char → Bool
  | [] => false
  | c :: rest =>
    ((c = '?' || c = '&') && leadsWith "gh_jid=".data rest &&
      (match rest.drop 7 with | d :: _ => isDig d | [] => false)) || ghJidPat rest

/-- Character class `[a-f0-9-]` of the Lever path pattern. -/
def isHexDash (c : Char) : Bool := (97 ≤ c.toNat && c.toNat ≤ 102) || isDig c || c = '-'

/-- Matcher for the regex `lever\.co/[^/]+/[a-f0-9-]+`. -/
def leverPathPat : List Char → Bool
  | [] => false
  | c :: rest =>
    (leadsWith "lever.co/".data (c :: rest) &&
      (let after := (c :: rest).drop 9
       !(after.takeWhile (fun x => x ≠ '/')).isEmpty &&
         (match after.dropWhile (fun x => x ≠ '/') with
          | '/' :: d :: _ => isHexDash d
          | _ => false))) || leverPathPat rest

/-- Matcher for the regex `\.workday\.com/.*?/job/` (`.` does not cross a
newline). -/
def workdayDotPat : List Char → Bool
  | [] => false
  | c :: rest =>
    (leadsWith ".workday.com/".data (c :: rest) &&
      containsSub "/job/".data (((c :: rest).drop 13).takeWhile (fun x => x ≠ '\n'))) ||
      workdayDotPat rest

/-- Matcher for the regex `wd\d+\.myworkdaysite\.com`. -/
def workdaySitePat : List Char → Bool
  | [] => false
  | c :: rest =>
    (leadsWith "wd".data (c :: rest) &&
      (let after := (c :: rest).drop 2
       !(after.takeWhile isDig).isEmpty &&
         leadsWith ".myworkdaysite.com".data (after.dropWhile isDig))) ||
      workdaySitePat rest

/-- source_detector.detect_greenhouse: the four `GREENHOUSE_PATTERNS` searched
in the lowered URL, then — only when none matched — `urlparse`/`parse_qs` on
the raw URL looking for a `gh_jid` key. The parse can raise (`urlparse` does on
unbalanced brackets in the netloc), which propagates. -/
def detect_greenhouse (url : List Char) : Except String Bool :=
  if containsSub "boards.greenhouse.io".data (lowerStr url)
      || containsSub "greenhouse.io/embed".data (lowerStr url)
      || ghJidPat (lowerStr url)
      || containsSub "job_app.greenhouse.io".data (lowerStr url) then
    .ok true
  else
    match urlparsePy url with
    | .error e => .error e
    | .ok parts => .ok (qsHasKey "gh_jid".data (parse_qsl parts.query))

/-- source_detector.detect_lever. -/
def detect_lever (url : List Char) : Bool :=
  let ul := lowerStr url
  containsSub "jobs.lever.co".data ul || leverPathPat ul

/-- source_detector.detect_workday. -/
def detect_workday (url : List Char) : Bool :=
  let ul := lowerStr url
  containsSub "myworkdayjobs.com".data ul || workdayDotPat ul || workdaySitePat ul

/-- source_detector.detect_source: Greenhouse, then Lever, then Workday, then
generic; an exception from `detect_greenhouse` propagates. -/
def detect_source (url : List Char) : Except String String :=
  match detect_greenhouse url with
  | .error e => .error e
  | .ok true => .ok "greenhouse"
  | .ok false =>
    if detect_lever url then .ok "lever"
    else if detect_workday url then .ok "workday"
    else .ok "generic"

/-! url_resolver.py -/

/-- Matcher/extractor for the regex `/jobs?/(\d+)`: greedy `s?`, leftmost
occurrence, digits of the capture group. -/
def jobsPathId : List Char → Option (List Char)
  | [] => none
  | c :: rest =>
    let cs := c :: rest
    let withS : Option (List Char) :=
      if leadsWith "/jobs/".data cs then
        let ds := (cs.drop 6).takeWhile isDig
        if ds.isEmpty then none else some ds
      else none
    match withS with
    | some ds => some ds
    | none =>
      let noS : Option (List Char) :=
        if leadsWith "/job/".data cs then
          let ds := (cs.drop 5).takeWhile isDig
          if ds.isEmpty then none else some ds
        else none
      match noS with
      | some ds => some ds
      | none => jobsPathId rest

/-- Extractor for the regex `boards\.greenhouse\.io/([^/]+)` (case-sensitive,
on the raw URL). -/
def ghBoardsCompany : List Char → Option (List Char)
  | [] => none
  | c :: rest =>
    if leadsWith "boards.greenhouse.io/".data (c :: rest) then
      let seg := ((c :: rest).drop 21).takeWhile (fun x => x ≠ '/')
      if seg.isEmpty then ghBoardsCompany rest else some seg
    else ghBoardsCompany rest

/-- Extractor for the regex `greenhouse\.io/embed/job_board/js\?for=([^&]+)`. -/
def ghEmbedCompany : List Char → Option (List Char)
  | [] => none
  | c :: rest =>
    if leadsWith "greenhouse.io/embed/job_board/js?for=".data (c :: rest) then
      let seg := ((c :: rest).drop 37).takeWhile (fun x => x ≠ '&')
      if seg.isEmpty then ghEmbedCompany rest else some seg
    else ghEmbedCompany rest

/-- url_resolver._extract_greenhouse_company: the `for` parameter, then the
`boards.greenhouse.io/{token}` path, then the embed-script URL. -/
def extractGreenhouseCompany (url : List Char) (qp : List (List Char × List Char)) :
    Option (List Char) :=
  match qsFirst "for".data qp with
  | some v => some v
  | none =>
    match ghBoardsCompany url with
    | some t => some t
    | none => ghEmbedCompany url

/-- Python truthiness of an optional string (`if company_token:`). -/
def truthyOpt : Option (List Char) → Option (List Char)
  | some s => if s.isEmpty then none else some s
  | none => none

/-- Canonical Greenhouse board URL `https://boards.greenhouse.io/{token}/jobs/{id}`. -/
def ghCanonical (token id : List Char) : List Char :=
  "https://boards.greenhouse.io/".data ++ token ++ "/jobs/".data ++ id

/-- Greenhouse embed endpoint `https://boards.greenhouse.io/embed/job_app?token={t}`. -/
def ghEmbedUrl (token : List Char) : List Char :=
  "https://boards.greenhouse.io/embed/job_app?token=".data ++ token

/-- Body of `resolve_greenhouse_url` once the URL has been parsed
(`query_params` is written out as `parse_qsl parts.query`). -/
def resolveGreenhouseParsed (url : List Char) (parts : UrlParts) : List Char × Bool :=
  if containsSub "boards.greenhouse.io".data (lowerStr parts.netloc) then
    (url, false)
  else
    match qsFirst "gh_jid".data (parse_qsl parts.query) with
    | some job_id =>
      match truthyOpt (extractGreenhouseCompany url (parse_qsl parts.query)) with
      | some token => (ghCanonical token job_id, true)
      | none => (ghEmbedUrl job_id, true)
    | none =>
      if qsHasKey "token".data (parse_qsl parts.query) ∧
          containsSub "greenhouse".data (lowerStr url) then
        match qsFirst "token".data (parse_qsl parts.query) with
        | some token => (ghEmbedUrl token, true)
        | none => (url, false)
      else
        match jobsPathId url with
        | some job_id =>
          match truthyOpt (extractGreenhouseCompany url (parse_qsl parts.query)) with
          | some token => (ghCanonical token job_id, true)
          | none => (url, false)
        | none => (url, false)

/-- url_resolver.resolve_greenhouse_url (the initial `urlparse` can raise). -/
def resolve_greenhouse_url (url : List Char) : Except String (List Char × Bool) :=
  match urlparsePy url with
  | .error e => .error e
  | .ok parts => .ok (resolveGreenhouseParsed url parts)

/-- Removal of a trailing `/apply` or `/apply/` path segment
(`re.sub(r'/apply/?$', '', path)`). -/
def stripApplySuffix (p : List Char) : List Char :=
  if "/apply/".data.isSuffixOf p then p.take (p.length - 7)
  else if "/apply".data.isSuffixOf p then p.take (p.length - 6)
  else p

/-- Body of `resolve_lever_url` once the URL has been parsed. -/
def resolveLeverParsed (url : List Char) (parts : UrlParts) : List Char × Bool :=
  if !containsSub "lever.co".data (lowerStr parts.netloc) then (url, false)
  else if stripApplySuffix parts.path ≠ parts.path then
    (parts.scheme ++ "://".data ++ parts.netloc ++ stripApplySuffix parts.path, true)
  else (url, false)

/-- url_resolver.resolve_lever_url (the initial `urlparse` can raise). -/
def resolve_lever_url (url : List Char) : Except String (List Char × Bool) :=
  match urlparsePy url with
  | .error e => .error e
  | .ok parts => .ok (resolveLeverParsed url parts)

/-- url_resolver.resolve_workday_url: always the original URL. -/
def resolve_workday_url (url : List Char) : Except String (List Char × Bool) :=
  .ok (url, false)

/-- url_resolver.resolve_url: dispatch on the detected source. -/
def resolve_url (url : List Char) (source : String) : Except String (List Char × Bool) :=
  if source = "greenhouse" then resolve_greenhouse_url url
  else if source = "lever" then resolve_lever_url url
  else if source = "workday" then resolve_workday_url url
  else .ok (url, false)

/-! content_cleaner.py: `_final_cleanup` and `is_meaningful_content`. -/

/-- Collapse every run of three or more newlines to exactly two
(`re.sub(r'\n{3,}', '\n\n', text)`); `k` counts pending newlines. -/
def collapseNLGo : Nat → List Char → List Char
  | k, [] => List.replicate (min k 2) '\n'
  | k, '\n' :: rest => collapseNLGo (k + 1) rest
  | k, c :: rest => List.replicate (min k 2) '\n' ++ c :: collapseNLGo 0 rest

/-- Character class of the pure-punctuation line pattern `^[\s\-•·*|/\\]+$`. -/
def punctWsChar (c : Char) : Bool :=
  pyWs c || c = '-' || c = '•' || c = '·' || c = '*' || c = '|' || c = '/' || c = '\\'

/-- Line filter of `_final_cleanup`: keep a line when it is non-empty (Python
truthiness), not a pure punctuation/whitespace run, and its stripped form is
longer than 2 characters or empty (the last disjunct is unreachable: a line
passing the first two tests strips to something non-empty). -/
def finalKeepLine (line : List Char) : Bool :=
  !line.isEmpty && !line.all punctWsChar &&
    (2 < (pyStrip line).length || (pyStrip line).isEmpty)

/-- Collapse horizontal whitespace runs to one space (`re.sub(r'[ \t]+', ' ')`). -/
def squeezeGo : Bool → List Char → List Char
  | _, [] => []
  | inRun, c :: rest =>
    if c = ' ' || c = '\t' then (if inRun then [] else [' ']) ++ squeezeGo true rest
    else c :: squeezeGo false rest

/-- Replace `"\n "` by `"\n"`, scanning left to right (`re.sub(r'\n ', '\n')`). -/
def dropNlSpace : List Char → List Char
  | [] => []
  | '\n' :: ' ' :: rest => '\n' :: dropNlSpace rest
  | c :: rest => c :: dropNlSpace rest

/-- content_cleaner._final_cleanup. -/
def finalCleanup (text : List Char) : List Char :=
  let t1 := collapseNLGo 0 text
  let kept := (splitOnChar '\n' t1).filter finalKeepLine
  pyStrip (dropNlSpace (squeezeGo false (joinWith ['\n'] kept)))

/-- Vocabulary of `is_meaningful_content` (apostrophes written via their code
point). -/
def jobKeywords : List (List Char) :=
  ["responsibilities".data, "qualifications".data, "requirements".data,
   "experience".data, "skills".data, "benefits".data, "salary".data, "location".data,
   "apply".data, "position".data, "role".data, "team".data, "opportunity".data,
   "job description".data, "about the role".data,
   "what you".data ++ Char.ofNat 39 :: "ll do".data,
   "what we".data ++ Char.ofNat 39 :: "re looking for".data,
   "who you are".data, "about you".data]

/-- content_cleaner.is_meaningful_content. The Python signature defaults
`min_length` to 200; callers of the model pass it explicitly. -/
def is_meaningful_content (text : List Char) (min_length : Nat) : Bool :=
  if text.length < min_length then false
  else
    let tl := lowerStr text
    if (jobKeywords.filter (fun kw => containsSub kw tl)).length < 2 then false
    else true

/-! Claim-level definitions and theorems. -/

theorem toOption_eq_some {ε α : Type} {x : Except ε α} {a : α} :
    x.toOption = some a ↔ x = .ok a := by
  cases x <;> simp [Except.toOption]

theorem processBlock_eq_none_of_noItem {b : List Char}
    (h : blockJobPostingItem b = none) : processBlock b = none := by
  unfold processBlock
  rw [h]
  rfl

theorem processBlock_eq_some_iff {b : List Char} {r : List (List Char × Json)} :
    processBlock b = some r ↔
      ∃ item, blockJobPostingItem b = some item ∧ normalizeJobPosting item = .ok r := by
  unfold processBlock
  rw [Option.bind_eq_some]
  constructor
  · rintro ⟨item, h1, h2⟩
    exact ⟨item, h1, toOption_eq_some.mp h2⟩
  · rintro ⟨item, h1, h2⟩
    exact ⟨item, h1, toOption_eq_some.mpr h2⟩

theorem normalize_obj_ok {fs : List (List Char × Json)} {loc sal : Json}
    (hl : extractLocation fs = .ok loc) (hs : extractSalary fs = .ok sal) :
    normalizeJobPosting (.obj fs) = .ok ((normFields fs loc sal).filter (fun p => truthy p.2)) := by
  simp only [normalizeJobPosting]
  rw [hl]
  simp only [Except.bind]
  rw [hs]
  rfl

theorem normalize_obj_err_loc {fs : List (List Char × Json)} {e : String}
    (hl : extractLocation fs = .error e) : normalizeJobPosting (.obj fs) = .error e := by
  simp only [normalizeJobPosting]
  rw [hl]
  rfl

theorem normalize_obj_err_sal {fs : List (List Char × Json)} {loc : Json} {e : String}
    (hl : extractLocation fs = .ok loc) (hs : extractSalary fs = .error e) :
    normalizeJobPosting (.obj fs) = .error e := by
  simp only [normalizeJobPosting]
  rw [hl]
  simp only [Except.bind]
  rw [hs]
  rfl

theorem normalize_fields_truthy {item : Json} {r : List (List Char × Json)}
    (h : normalizeJobPosting item = .ok r) : ∀ p ∈ r, truthy p.2 = true := by
  cases item with
  | obj fs =>
    cases hl : extractLocation fs with
    | error e => rw [normalize_obj_err_loc hl] at h; exact absurd h (by simp)
    | ok loc =>
      cases hs : extractSalary fs with
      | error e => rw [normalize_obj_err_sal hl hs] at h; exact absurd h (by simp)
      | ok sal =>
        rw [normalize_obj_ok hl hs] at h
        simp only [Except.ok.injEq] at h
        intro p hp
        rw [← h] at hp
        exact (List.mem_filter.mp hp).2
  | null => exact absurd h (by simp [normalizeJobPosting])
  | bool b => exact absurd h (by simp [normalizeJobPosting])
  | num raw => exact absurd h (by simp [normalizeJobPosting])
  | str s => exact absurd h (by simp [normalizeJobPosting])
  | arr xs => exact absurd h (by simp [normalizeJobPosting])

/-- Block used by the C1 counterexample: a JobPosting with no extractable
field at all. -/
def c1EmptyBlock : List Char := "\x7b\"@type\": \"JobPosting\"\x7d".data

/-- Block used by the C1 witness. -/
def c1GoodBlock : List Char := "\x7b\"@type\": \"JobPosting\", \"title\": \"T\"\x7d".data

/-- C1 counterexample: on a block whose JobPosting has no extractable fields,
`extract_schema_job_posting` reports the posting as found and returns the empty
record — it does not return `None`, and no `title`/`description`/`company`
field is present, contradicting the claimed invariant. -/
theorem c1_counterexample_empty_record :
    extract_schema_job_posting [c1EmptyBlock] = some [] := rfl

/-- C1 (amended): whenever `extract_schema_job_posting` returns a record, every
field actually present in the record is truthy (non-empty); but the record
itself may lack all of `title`/`description`/`company` and may even be empty —
`None` is returned only when no block yields a JobPosting item. -/
theorem c1_found_record_fields_nonempty :
    ∀ blocks r, extract_schema_job_posting blocks = some r →
      ∀ p ∈ r, truthy p.2 = true := by
  intro blocks
  induction blocks with
  | nil => intro r h; exact absurd h (by simp [extract_schema_job_posting])
  | cons b bs ih =>
    intro r h
    rw [extract_schema_job_posting, List.findSome?_cons] at h
    cases hb : processBlock b with
    | some r2 =>
      rw [hb] at h
      simp at h
      obtain ⟨item, _, hn⟩ := processBlock_eq_some_iff.mp hb
      subst h
      exact normalize_fields_truthy hn
    | none =>
      rw [hb] at h
      simp at h
      exact ih r (show extract_schema_job_posting bs = some r from h)

/-- C1 witness. -/
theorem c1_witness : truthy (Json.str "T".data) = true :=
  c1_found_record_fields_nonempty [c1GoodBlock] [("title".data, Json.str "T".data)] rfl
    ("title".data, Json.str "T".data) (by simp)

/-- First block of the C2 counterexample: its JobPosting is first in document
order, but its salary bounds are JSON strings, so `_normalize_job_posting`
raises inside the f-string `{min_val:,}` and the block is skipped. -/
def c2BlockA : List Char :=
  "\x7b\"@type\": \"JobPosting\", \"title\": \"A\", \"baseSalary\": \x7b\"value\": \x7b\"minValue\": \"1\", \"maxValue\": \"2\"\x7d\x7d\x7d".data

/-- The parsed JobPosting item of `c2BlockA`. -/
def c2ItemA : Json :=
  .obj [("@type".data, .str "JobPosting".data), ("title".data, .str "A".data),
        ("baseSalary".data,
          .obj [("value".data,
            .obj [("minValue".data, .str "1".data), ("maxValue".data, .str "2".data)])])]

/-- Second block of the C2 counterexample. -/
def c2BlockB : List Char := "\x7b\"@type\": \"JobPosting\", \"title\": \"B\"\x7d".data

/-- Array block of the C2 example: one Organization, one JobPosting. -/
def c2ArrBlock : List Char :=
  "[\x7b\"@type\": \"Organization\", \"name\": \"Acme\"\x7d, \x7b\"@type\": \"JobPosting\", \"title\": \"Test Job\", \"description\": \"Test\"\x7d]".data

/-- The JobPosting item inside `c2ArrBlock`. -/
def c2ArrItem : Json :=
  .obj [("@type".data, .str "JobPosting".data), ("title".data, .str "Test Job".data),
        ("description".data, .str "Test".data)]

/-- C2 counterexample: the first block locates a JobPosting item (so the first
match in document order is in block A), yet the extractor returns block B's
record, and block A alone extracts nothing — normalization of the first match
raised and scanning continued instead of stopping. -/
theorem c2_counterexample_scan_continues :
    blockJobPostingItem c2BlockA = some c2ItemA ∧
    isJobPostingE c2ItemA = .ok true ∧
    extract_schema_job_posting [c2BlockA, c2BlockB] =
      some [("title".data, Json.str "B".data)] ∧
    extract_schema_job_posting [c2BlockA] = none :=
  ⟨rfl, rfl, rfl, rfl⟩

/-- C2 (amended): the extractor returns the normalization of the first
JobPosting item in document order whose normalization does not raise, and
scanning stops there (blocks after it are irrelevant); when normalization of
the matched item raises, that block is skipped. In particular, on an array
block holding one Organization and one JobPosting, it returns the normalized
JobPosting and ignores the Organization. -/
theorem c2_first_match_wins :
    (∀ pre b post item r,
      (∀ b2 ∈ pre, blockJobPostingItem b2 = none) →
      blockJobPostingItem b = some item →
      normalizeJobPosting item = .ok r →
      extract_schema_job_posting (pre ++ b :: post) = some r) ∧
    extract_schema_job_posting [c2ArrBlock] =
      some [("title".data, Json.str "Test Job".data),
            ("description".data, Json.str "Test".data)] := by
  constructor
  · intro pre b post item r hpre hb hn
    induction pre with
    | nil =>
      simp only [List.nil_append]
      rw [extract_schema_job_posting, List.findSome?_cons,
        processBlock_eq_some_iff.mpr ⟨item, hb, hn⟩]
    | cons b2 pre2 ih =>
      simp only [List.cons_append]
      rw [extract_schema_job_posting, List.findSome?_cons,
        processBlock_eq_none_of_noItem (hpre b2 (by simp))]
      exact ih (fun b3 hm => hpre b3 (by simp [hm]))
  · rfl

/-- C2 witness, instancing the amended theorem on the Organization-plus-
JobPosting array block. -/
theorem c2_witness :
    extract_schema_job_posting [c2ArrBlock] =
      some [("title".data, Json.str "Test Job".data),
            ("description".data, Json.str "Test".data)] :=
  c2_first_match_wins.1 [] c2ArrBlock []
    c2ArrItem [("title".data, Json.str "Test Job".data),
               ("description".data, Json.str "Test".data)]
    (by simp) rfl rfl

/-- Malformed JSON-LD payload from the repository's own test-suite. -/
def c3Malformed : List Char := "\x7b \"invalid json\": \x7d".data

/-- C3: a block that fails to parse is skipped and scanning continues with the
remaining blocks; when no block locates a JobPosting item, the extractor
returns `None` (the model is a total function, so no exception escapes); and
the test-suite's malformed payload extracts to `None`. -/
theorem c3_malformed_blocks_skipped :
    (∀ b blocks, jsonLoads b = none →
      extract_schema_job_posting (b :: blocks) = extract_schema_job_posting blocks) ∧
    (∀ blocks, (∀ b ∈ blocks, ∀ j item, jsonLoads b = some j →
        scanStructure j ≠ .ok (some item)) →
      extract_schema_job_posting blocks = none) ∧
    extract_schema_job_posting [c3Malformed] = none := by
  refine ⟨?_, ?_, rfl⟩
  · intro b blocks h
    rw [extract_schema_job_posting, List.findSome?_cons]
    have hbi : blockJobPostingItem b = none := by unfold blockJobPostingItem; rw [h]
    rw [processBlock_eq_none_of_noItem hbi]
    rfl
  · intro blocks h
    induction blocks with
    | nil => rfl
    | cons b bs ih =>
      rw [extract_schema_job_posting, List.findSome?_cons]
      have hpb : processBlock b = none := by
        apply processBlock_eq_none_of_noItem
        cases hj : jsonLoads b with
        | none => unfold blockJobPostingItem; rw [hj]
        | some j =>
          have hstep : blockJobPostingItem b =
              match scanStructure j with
              | .ok (some item) => some item
              | _ => none := by
            unfold blockJobPostingItem; rw [hj]
          rw [hstep]
          cases hs : scanStructure j with
          | error e => rfl
          | ok o =>
            cases o with
            | none => rfl
            | some item => exact absurd hs (h b (by simp) j item hj)
      rw [hpb]
      exact ih (fun b2 hm => h b2 (by simp [hm]))

/-- C3 witness. -/
theorem c3_witness :
    extract_schema_job_posting [c3Malformed] = extract_schema_job_posting [] :=
  c3_malformed_blocks_skipped.1 c3Malformed [] rfl

/-- C7: on the failing input `"abcd\n\nefgh"`, the final cleanup stage drops
the truly blank line instead of keeping it for spacing — the line filter's
`line and not re.match(...)` guard rejects empty lines before the
`line.strip() == ''` branch meant to keep them can run. The output still
contains no run of blank lines (trivially: it contains none at all). -/
theorem c7_blank_line_dropped :
    finalCleanup "abcd\n\nefgh".data = "abcd\nefgh".data ∧
    containsSub "\n\n".data (finalCleanup "abcd\n\nefgh".data) = false := by
  exact ⟨rfl, rfl⟩

/-- The 500-character passage of the C8 claim, containing both
`responsibilities` and `requirements`. -/
def c8Passage : List Char :=
  "responsibilities include shipping products. requirements include curiosity and care. ".data ++
    List.replicate 415 'x'

set_option maxRecDepth 100000 in
/-- C8: `is_meaningful_content` is false on any text shorter than
`min_length = 200` (in particular on `""` and `"   "`); on long-enough text it
is true exactly when at least two distinct vocabulary terms occur in the
lowered text; and the concrete 500-character passage passes. -/
theorem c8_is_meaningful_content_spec :
    (∀ text : List Char, text.length < 200 → is_meaningful_content text 200 = false) ∧
    (∀ text : List Char, 200 ≤ text.length →
      (is_meaningful_content text 200 = true ↔
        2 ≤ (jobKeywords.filter (fun kw => containsSub kw (lowerStr text))).length)) ∧
    is_meaningful_content "".data 200 = false ∧
    is_meaningful_content "   ".data 200 = false ∧
    c8Passage.length = 500 ∧ is_meaningful_content c8Passage 200 = true := by
  refine ⟨?_, ?_, rfl, rfl, ?_, ?_⟩
  · intro text h
    unfold is_meaningful_content
    rw [if_pos h]
  · intro text h
    unfold is_meaningful_content
    rw [if_neg (Nat.not_lt.mpr h)]
    by_cases h2 : (jobKeywords.filter (fun kw => containsSub kw (lowerStr text))).length < 2
    · simp only [h2, if_pos]
      constructor
      · intro hf; exact absurd hf (by simp)
      · intro hc; omega
    · simp only [h2, if_neg]
      constructor
      · intro _; omega
      · intro _; rfl
  · decide
  · decide

/-- C8 witness. -/
theorem c8_witness : is_meaningful_content "hello".data 200 = false :=
  c8_is_meaningful_content_spec.1 "hello".data (by decide)

/-! Utility lemmas for the URL claims. -/

theorem predFalseNe {f : Char → Bool} {c : Char} (h : f c = true) (d : Char)
    (hd : f d = false) : c ≠ d := by
  intro he
  rw [he, hd] at h
  exact Bool.noConfusion h

theorem detect_greenhouse_of_pattern {url : List Char}
    (h : ghJidPat (lowerStr url) = true) : detect_greenhouse url = .ok true := by
  unfold detect_greenhouse
  rw [if_pos]
  simp [h]

theorem detect_source_of_gh {url : List Char} (h : detect_greenhouse url = .ok true) :
    detect_source url = .ok "greenhouse" := by
  unfold detect_source
  rw [h]

/-- C4 counterexample: a `gh_jid` parameter with an upper-case key and a
non-numeric value is not recognized — the regex wants digits and the
`parse_qs` lookup is case-sensitive — so the URL classifies as generic, not
Greenhouse. -/
theorem c4_counterexample_upper_key :
    detect_source "https://x.com/?GH_JID=abc".data = .ok "generic" := rfl

/-- C4 (amended): a URL classifies as Greenhouse whenever the lowered URL
matches `[?&]gh_jid=<digits>` (any key case, numeric value), or whenever
`parse_qs` of the parsed query yields the exact lower-case key `gh_jid` with a
non-empty value. (A `gh_jid` key in other letter case with a non-numeric
value, or with an empty value, is not recognized.) -/
theorem c4_gh_jid_classifies_greenhouse :
    (∀ url, ghJidPat (lowerStr url) = true → detect_source url = .ok "greenhouse") ∧
    (∀ url parts, urlparsePy url = .ok parts →
      qsHasKey "gh_jid".data (parse_qsl parts.query) = true →
      detect_source url = .ok "greenhouse") := by
  constructor
  · intro url h
    exact detect_source_of_gh (detect_greenhouse_of_pattern h)
  · intro url parts hp hk
    apply detect_source_of_gh
    unfold detect_greenhouse
    by_cases hcond : (containsSub "boards.greenhouse.io".data (lowerStr url)
        || containsSub "greenhouse.io/embed".data (lowerStr url)
        || ghJidPat (lowerStr url)
        || containsSub "job_app.greenhouse.io".data (lowerStr url)) = true
    · rw [if_pos hcond]
    · rw [if_neg hcond, hp]
      simp [hk]

/-- C4 witness. -/
theorem c4_witness : detect_source "https://x.com/?gh_jid=123".data = .ok "greenhouse" :=
  c4_gh_jid_classifies_greenhouse.1 "https://x.com/?gh_jid=123".data (by decide)

/-- C5 counterexample: `urlparse` raises `ValueError: Invalid IPv6 URL` on a
netloc with an unbalanced bracket, and `detect_source` propagates it instead of
classifying the malformed URL as generic. -/
theorem c5_counterexample_raises :
    detect_source "http://[".data = .error "Invalid IPv6 URL" := rfl

theorem detect_greenhouse_ok_of_parse {url : List Char} {parts : UrlParts}
    (hp : urlparsePy url = .ok parts) : ∃ b, detect_greenhouse url = .ok b := by
  unfold detect_greenhouse
  by_cases hcond : (containsSub "boards.greenhouse.io".data (lowerStr url)
      || containsSub "greenhouse.io/embed".data (lowerStr url)
      || ghJidPat (lowerStr url)
      || containsSub "job_app.greenhouse.io".data (lowerStr url)) = true
  · rw [if_pos hcond]
    exact ⟨true, rfl⟩
  · rw [if_neg hcond, hp]
    exact ⟨_, rfl⟩

/-- C5 (amended): `detect_source` returns a platform tag for every URL that
`urlparse` can parse (with unparsable-but-pattern-free URLs falling to
generic), and the only way it fails is by propagating the `urlparse`
exception — raised exactly on a netloc with unbalanced square brackets. -/
theorem c5_total_when_parsable :
    (∀ url parts, urlparsePy url = .ok parts → ∃ t, detect_source url = .ok t) ∧
    (∀ url e, detect_source url = .error e → urlparsePy url = .error e) := by
  constructor
  · intro url parts hp
    obtain ⟨b, hg⟩ := detect_greenhouse_ok_of_parse hp
    unfold detect_source
    rw [hg]
    cases b
    · by_cases hl : detect_lever url = true
      · exact ⟨"lever", by rw [if_pos hl]⟩
      · by_cases hw : detect_workday url = true
        · exact ⟨"workday", by rw [if_neg hl, if_pos hw]⟩
        · exact ⟨"generic", by rw [if_neg hl, if_neg hw]⟩
    · exact ⟨"greenhouse", rfl⟩
  · intro url e h
    unfold detect_source at h
    cases hg : detect_greenhouse url with
    | error e2 =>
      rw [hg] at h
      simp at h
      subst h
      unfold detect_greenhouse at hg
      by_cases hcond : (containsSub "boards.greenhouse.io".data (lowerStr url)
          || containsSub "greenhouse.io/embed".data (lowerStr url)
          || ghJidPat (lowerStr url)
          || containsSub "job_app.greenhouse.io".data (lowerStr url)) = true
      · rw [if_pos hcond] at hg
        exact absurd hg (by simp)
      · rw [if_neg hcond] at hg
        cases hp : urlparsePy url with
        | error e3 =>
          rw [hp] at hg
          simp at hg
          rw [hg]
        | ok parts => rw [hp] at hg; exact absurd hg (by simp)
    | ok b =>
      rw [hg] at h
      cases b
      · by_cases hl : detect_lever url = true
        · rw [if_pos hl] at h; exact absurd h (by simp)
        · rw [if_neg hl] at h
          by_cases hw : detect_workday url = true
          · rw [if_pos hw] at h; exact absurd h (by simp)
          · rw [if_neg hw] at h; exact absurd h (by simp)
      · exact absurd h (by simp)

/-- C5 witness. -/
theorem c5_witness : ∃ t, detect_source "https://example.org/careers".data = .ok t :=
  c5_total_when_parsable.1 "https://example.org/careers".data
    ⟨"https".data, "example.org".data, "/careers".data, [], []⟩ rfl

/-! Character-level lemmas. -/

theorem toNatOfNatLow (n : Nat) (h : n < 55296) : (Char.ofNat n).toNat = n := by
  have hv : n.isValidChar := Or.inl h
  unfold Char.ofNat
  rw [dif_pos hv]
  rfl

theorem lowerChar_toNat {c : Char} (h1 : 64 < c.toNat) (h2 : c.toNat < 91) :
    (lowerChar c).toNat = c.toNat + 32 := by
  unfold lowerChar
  rw [if_pos ⟨h1, h2⟩, toNatOfNatLow _ (by omega)]

theorem lowerChar_eq_self {c : Char} (h : ¬(64 < c.toNat ∧ c.toNat < 91)) :
    lowerChar c = c := by
  unfold lowerChar
  rw [if_neg h]

theorem lowerChar_idem (c : Char) : lowerChar (lowerChar c) = lowerChar c := by
  by_cases h : 64 < c.toNat ∧ c.toNat < 91
  · have ht := lowerChar_toNat h.1 h.2
    exact lowerChar_eq_self (by omega)
  · rw [lowerChar_eq_self h, lowerChar_eq_self h]

theorem isAsciiAlpha_iff {c : Char} :
    isAsciiAlpha c = true ↔ (65 ≤ c.toNat ∧ c.toNat ≤ 90) ∨ (97 ≤ c.toNat ∧ c.toNat ≤ 122) := by
  simp [isAsciiAlpha]

theorem isDig_iff {c : Char} : isDig c = true ↔ 48 ≤ c.toNat ∧ c.toNat ≤ 57 := by
  simp [isDig]

theorem isAsciiAlpha_lowerChar {c : Char} (h : isAsciiAlpha c = true) :
    isAsciiAlpha (lowerChar c) = true := by
  rw [isAsciiAlpha_iff] at h
  by_cases hu : 64 < c.toNat ∧ c.toNat < 91
  · have ht := lowerChar_toNat hu.1 hu.2
    rw [isAsciiAlpha_iff, ht]
    omega
  · rw [lowerChar_eq_self hu, isAsciiAlpha_iff]
    exact h

theorem isSchemeChar_lowerChar {c : Char} (h : isSchemeChar c = true) :
    isSchemeChar (lowerChar c) = true := by
  unfold isSchemeChar at h ⊢
  simp only [Bool.or_eq_true, decide_eq_true_eq] at h ⊢
  rcases h with ((((ha | hd) | hp) | hm) | hdot)
  · exact Or.inl (Or.inl (Or.inl (Or.inl (isAsciiAlpha_lowerChar ha))))
  · have hb := isDig_iff.mp hd
    rw [lowerChar_eq_self (by omega)]
    exact Or.inl (Or.inl (Or.inl (Or.inr hd)))
  · subst hp
    exact Or.inl (Or.inl (Or.inr (by decide)))
  · subst hm
    exact Or.inl (Or.inr (by decide))
  · subst hdot
    exact Or.inr (by decide)

theorem isSchemeChar_not_special {c : Char} (h : isSchemeChar c = true) :
    c ≠ ':' ∧ c ≠ '?' ∧ c ≠ '#' ∧ c ≠ '/' ∧ badUrlChar c = false := by
  refine ⟨predFalseNe h ':' (by decide), predFalseNe h '?' (by decide),
    predFalseNe h '#' (by decide), predFalseNe h '/' (by decide), ?_⟩
  have h1 := predFalseNe h '\t' (by decide)
  have h2 := predFalseNe h '\r' (by decide)
  have h3 := predFalseNe h '\n' (by decide)
  simp [badUrlChar, h1, h2, h3]

theorem urlNetlocEnd_false_ne {c : Char} (h : urlNetlocEnd c = false) :
    c ≠ '/' ∧ c ≠ '?' ∧ c ≠ '#' := by
  exact ⟨predFalseNe (f := fun c => !urlNetlocEnd c) (by simp [h]) '/' (by decide),
    predFalseNe (f := fun c => !urlNetlocEnd c) (by simp [h]) '?' (by decide),
    predFalseNe (f := fun c => !urlNetlocEnd c) (by simp [h]) '#' (by decide)⟩

/-! List-splitting lemmas. -/

theorem splitAtFirst_sound {t : Char} :
    ∀ {cs a b : List Char}, splitAtFirst t cs = some (a, b) → cs = a ++ t :: b ∧ t ∉ a := by
  intro cs
  induction cs with
  | nil => intro a b h; exact absurd h (by simp [splitAtFirst])
  | cons c cs ih =>
    intro a b h
    unfold splitAtFirst at h
    by_cases hc : c = t
    · rw [if_pos hc] at h
      simp only [Option.some.injEq, Prod.mk.injEq] at h
      obtain ⟨h1, h2⟩ := h
      subst h1
      subst h2
      subst hc
      exact ⟨rfl, by simp⟩
    · rw [if_neg hc] at h
      cases hs : splitAtFirst t cs with
      | none => rw [hs] at h; exact absurd h (by simp)
      | some p =>
        obtain ⟨a2, b2⟩ := p
        rw [hs] at h
        simp only [Option.map_some', Option.some.injEq, Prod.mk.injEq] at h
        obtain ⟨h1, h2⟩ := h
        obtain ⟨hcs, hnm⟩ := ih hs
        subst h1
        subst h2
        refine ⟨by rw [hcs]; rfl, ?_⟩
        intro hm
        rcases List.mem_cons.mp hm with he | hm2
        · exact hc he.symm
        · exact hnm hm2

theorem splitAtFirst_eq_none_of_not_mem {t : Char} :
    ∀ {cs : List Char}, t ∉ cs → splitAtFirst t cs = none := by
  intro cs
  induction cs with
  | nil => intro _; rfl
  | cons c cs ih =>
    intro h
    unfold splitAtFirst
    rw [if_neg (fun he => h (by simp [he])), ih (fun hm => h (by simp [hm]))]
    rfl

theorem not_mem_of_splitAtFirst_eq_none {t : Char} :
    ∀ {cs : List Char}, splitAtFirst t cs = none → t ∉ cs := by
  intro cs
  induction cs with
  | nil => intro _ hm; simp at hm
  | cons c cs ih =>
    intro h hm
    unfold splitAtFirst at h
    by_cases hc : c = t
    · rw [if_pos hc] at h; exact absurd h (by simp)
    · rw [if_neg hc] at h
      cases hs : splitAtFirst t cs with
      | some p => rw [hs] at h; exact absurd h (by simp)
      | none =>
        rcases List.mem_cons.mp hm with he | hm2
        · exact hc he.symm
        · exact ih hs hm2

theorem splitAtFirst_append_not_mem {t : Char} :
    ∀ {xs : List Char} (ys : List Char), t ∉ xs →
      splitAtFirst t (xs ++ t :: ys) = some (xs, ys) := by
  intro xs
  induction xs with
  | nil => intro ys _; simp [splitAtFirst]
  | cons x xs ih =>
    intro ys h
    simp only [List.cons_append]
    unfold splitAtFirst
    rw [if_neg (fun he => h (by simp [he])), ih ys (fun hm => h (by simp [hm]))]
    rfl

theorem splitAtFirstD_fst_not_mem (t : Char) (cs : List Char) : t ∉ (splitAtFirstD t cs).1 := by
  unfold splitAtFirstD
  cases hs : splitAtFirst t cs with
  | none => simpa using not_mem_of_splitAtFirst_eq_none hs
  | some p =>
    obtain ⟨a, b⟩ := p
    simpa using (splitAtFirst_sound hs).2

theorem splitAtFirstD_fst_subset (t : Char) (cs : List Char) : (splitAtFirstD t cs).1 ⊆ cs := by
  unfold splitAtFirstD
  cases hs : splitAtFirst t cs with
  | none => simp
  | some p =>
    obtain ⟨a, b⟩ := p
    have hd := (splitAtFirst_sound hs).1
    simp only [Option.getD_some]
    rw [hd]
    exact List.subset_append_left a (t :: b)

theorem splitAtFirstD_of_not_mem {t : Char} {cs : List Char} (h : t ∉ cs) :
    splitAtFirstD t cs = (cs, []) := by
  unfold splitAtFirstD
  rw [splitAtFirst_eq_none_of_not_mem h]
  rfl

theorem splitAtFirstD_cons_eq (t : Char) (l : List Char) :
    splitAtFirstD t (t :: l) = ([], l) := by
  unfold splitAtFirstD
  unfold splitAtFirst
  rw [if_pos rfl]
  rfl

theorem splitAtFirstD_cons_ne {t c : Char} (h : ¬c = t) (l : List Char) :
    splitAtFirstD t (c :: l) = (c :: (splitAtFirstD t l).1, (splitAtFirstD t l).2) := by
  have hc : splitAtFirst t (c :: l) = (splitAtFirst t l).map (fun p => (c :: p.1, p.2)) := by
    simp only [splitAtFirst]
    rw [if_neg h]
  unfold splitAtFirstD
  rw [hc]
  cases hs : splitAtFirst t l with
  | none => rfl
  | some p => rfl

theorem not_mem_of_splitAtLast_eq_none {t : Char} :
    ∀ {cs : List Char}, splitAtLast t cs = none → t ∉ cs := by
  intro cs
  induction cs with
  | nil => intro _ hm; simp at hm
  | cons c cs ih =>
    intro h hm
    unfold splitAtLast at h
    cases hs : splitAtLast t cs with
    | some p => rw [hs] at h; exact absurd h (by simp)
    | none =>
      rw [hs] at h
      by_cases hc : c = t
      · rw [if_pos hc] at h; exact absurd h (by simp)
      · rw [if_neg hc] at h
        rcases List.mem_cons.mp hm with he | hm2
        · exact hc he.symm
        · exact ih hs hm2

theorem splitAtLast_sound {t : Char} :
    ∀ {cs a b : List Char}, splitAtLast t cs = some (a, b) → cs = a ++ t :: b ∧ t ∉ b := by
  intro cs
  induction cs with
  | nil => intro a b h; exact absurd h (by simp [splitAtLast])
  | cons c cs ih =>
    intro a b h
    unfold splitAtLast at h
    cases hs : splitAtLast t cs with
    | some p =>
      obtain ⟨a2, b2⟩ := p
      rw [hs] at h
      simp only [Option.some.injEq, Prod.mk.injEq] at h
      obtain ⟨h1, h2⟩ := h
      obtain ⟨hcs, hnm⟩ := ih hs
      subst h1
      subst h2
      exact ⟨by rw [hcs]; rfl, hnm⟩
    | none =>
      rw [hs] at h
      by_cases hc : c = t
      · rw [if_pos hc] at h
        simp only [Option.some.injEq, Prod.mk.injEq] at h
        obtain ⟨h1, h2⟩ := h
        subst h1
        subst h2
        subst hc
        exact ⟨rfl, not_mem_of_splitAtLast_eq_none hs⟩
      · rw [if_neg hc] at h
        exact absurd h (by simp)


theorem takeWhile_append_all {p : Char → Bool} :
    ∀ {xs : List Char} (ys : List Char), (∀ x ∈ xs, p x = true) →
      (xs ++ ys).takeWhile p = xs ++ ys.takeWhile p := by
  intro xs
  induction xs with
  | nil => intro ys _; rfl
  | cons x xs ih =>
    intro ys h
    simp only [List.cons_append, List.takeWhile_cons]
    rw [h x (by simp), ih ys (fun y hy => h y (by simp [hy]))]
    simp

theorem dropWhile_append_all {p : Char → Bool} :
    ∀ {xs : List Char} (ys : List Char), (∀ x ∈ xs, p x = true) →
      (xs ++ ys).dropWhile p = ys.dropWhile p := by
  intro xs
  induction xs with
  | nil => intro ys _; rfl
  | cons x xs ih =>
    intro ys h
    simp only [List.cons_append, List.dropWhile_cons]
    rw [h x (by simp), ih ys (fun y hy => h y (by simp [hy]))]
    simp

theorem takeWhile_cons_false {p : Char → Bool} {c : Char} (h : p c = false) (l : List Char) :
    (c :: l).takeWhile p = [] := by
  simp [List.takeWhile_cons, h]

theorem dropWhile_cons_false {p : Char → Bool} {c : Char} (h : p c = false) (l : List Char) :
    (c :: l).dropWhile p = c :: l := by
  simp [List.dropWhile_cons, h]

theorem dropWhile_head_false {p : Char → Bool} :
    ∀ {l : List Char} {c : Char} {t2 : List Char}, l.dropWhile p = c :: t2 → p c = false := by
  intro l
  induction l with
  | nil => intro c t2 h; simp at h
  | cons a l ih =>
    intro c t2 h
    rw [List.dropWhile_cons] at h
    by_cases ha : p a = true
    · rw [if_pos ha] at h
      exact ih h
    · rw [if_neg ha] at h
      simp only [List.cons.injEq] at h
      rw [← h.1]
      exact Bool.eq_false_iff.mpr ha

theorem map_eq_self_of {f : Char → Char} :
    ∀ {l : List Char}, (∀ x ∈ l, f x = x) → l.map f = l := by
  intro l
  induction l with
  | nil => intro _; rfl
  | cons x l ih =>
    intro h
    simp only [List.map_cons]
    rw [h x (by simp), ih (fun y hy => h y (by simp [hy]))]

theorem splitAtFirstD_fst_cons_ne {t c : Char} (h : ¬c = t) (l : List Char) :
    (splitAtFirstD t (c :: l)).1 = c :: (splitAtFirstD t l).1 := by
  rw [splitAtFirstD_cons_ne h]

theorem splitAtFirstD_fst_cons_eq (t : Char) (l : List Char) :
    (splitAtFirstD t (t :: l)).1 = [] := by
  rw [splitAtFirstD_cons_eq]

/-! Well-formedness of `urlparse` results. -/

/-- Shape facts holding of every `UrlParts` value `urlparse` returns. -/
structure PartsWF (p : UrlParts) : Prop where
  scheme_shape : p.scheme = [] ∨ ∃ c0 r0, p.scheme = c0 :: r0 ∧ isAsciiAlpha c0 = true
  scheme_chars : ∀ c ∈ p.scheme, isSchemeChar c = true ∧ lowerChar c = c
  netloc_chars : ∀ c ∈ p.netloc, urlNetlocEnd c = false ∧ badUrlChar c = false
  netloc_brackets : p.netloc.contains '[' = p.netloc.contains ']'
  path_chars : ∀ c ∈ p.path, c ≠ '?' ∧ c ≠ '#' ∧ badUrlChar c = false
  path_shape : p.netloc ≠ [] → p.path = [] ∨ ∃ t2, p.path = '/' :: t2

theorem schemeSplit_cases (cs : List Char) :
    schemeSplit cs = ([], cs) ∨
    ∃ pre post, splitAtFirst ':' cs = some (pre, post) ∧
      schemeSplit cs = (lowerStr pre, post) ∧
      (∃ c0 r0, pre = c0 :: r0 ∧ isAsciiAlpha c0 = true) ∧
      ∀ c ∈ pre, isSchemeChar c = true := by
  cases hs : splitAtFirst ':' cs with
  | none =>
    left
    unfold schemeSplit
    rw [hs]
  | some p =>
    obtain ⟨pre, post⟩ := p
    cases pre with
    | nil =>
      left
      unfold schemeSplit
      rw [hs]
    | cons c0 r0 =>
      obtain hv | hv := Bool.eq_false_or_eq_true (isAsciiAlpha c0 && (c0 :: r0).all isSchemeChar)
      swap
      · left
        unfold schemeSplit
        rw [hs]
        show (if isAsciiAlpha c0 && (c0 :: r0).all isSchemeChar
              then (lowerStr (c0 :: r0), post) else ([], cs)) = ([], cs)
        rw [if_neg (show ¬((isAsciiAlpha c0 && (c0 :: r0).all isSchemeChar) = true) from
          fun he => by rw [hv] at he; exact Bool.noConfusion he)]
      · obtain ⟨hva, hvb⟩ := Bool.and_eq_true_iff.mp hv
        right
        refine ⟨c0 :: r0, post, rfl, ?_, ⟨c0, r0, rfl, hva⟩,
          fun c hc => List.all_eq_true.mp hvb c hc⟩
        unfold schemeSplit
        rw [hs]
        show (if isAsciiAlpha c0 && (c0 :: r0).all isSchemeChar
              then (lowerStr (c0 :: r0), post) else ([], cs)) = (lowerStr (c0 :: r0), post)
        rw [if_pos hv]

theorem fragQuerySplit_path_chars {scheme nl rest2 : List Char}
    (hr : ∀ c ∈ rest2, badUrlChar c = false) :
    ∀ c ∈ (fragQuerySplit scheme nl rest2).path,
      c ≠ '?' ∧ c ≠ '#' ∧ badUrlChar c = false := by
  intro c hc
  have hc1 : c ∈ (splitAtFirstD '?' (splitAtFirstD '#' rest2).1).1 := hc
  have hc2 : c ∈ (splitAtFirstD '#' rest2).1 := splitAtFirstD_fst_subset '?' _ hc1
  refine ⟨?_, ?_, hr c (splitAtFirstD_fst_subset '#' rest2 hc2)⟩
  · intro he
    subst he
    exact splitAtFirstD_fst_not_mem '?' _ hc1
  · intro he
    subst he
    exact splitAtFirstD_fst_not_mem '#' rest2 hc2

theorem fragQuerySplit_path_shape {scheme nl rest2 : List Char}
    (hshape : rest2 = [] ∨ ∃ c t2, rest2 = c :: t2 ∧ urlNetlocEnd c = true) :
    (fragQuerySplit scheme nl rest2).path = [] ∨
      ∃ t2, (fragQuerySplit scheme nl rest2).path = '/' :: t2 := by
  have hpath : (fragQuerySplit scheme nl rest2).path
      = (splitAtFirstD '?' (splitAtFirstD '#' rest2).1).1 := rfl
  rcases hshape with hnil | ⟨c, t2, hcons, hend⟩
  · left
    rw [hpath, hnil]
    rfl
  · have hor : (c = '/' ∨ c = '?') ∨ c = '#' := by
      simpa [urlNetlocEnd] using hend
    rcases hor with (h | h) | h
    · right
      subst h
      rw [hpath, hcons, splitAtFirstD_fst_cons_ne (by decide) t2,
        splitAtFirstD_fst_cons_ne (by decide)]
      exact ⟨_, rfl⟩
    · left
      subst h
      rw [hpath, hcons, splitAtFirstD_fst_cons_ne (by decide) t2,
        splitAtFirstD_fst_cons_eq]
    · left
      subst h
      rw [hpath, hcons, splitAtFirstD_fst_cons_eq]
      rfl

theorem urlsplitSub_wf {s r : List Char} {p : UrlParts}
    (h : urlsplitSub s r = .ok p)
    (hshape : s = [] ∨ ∃ c0 r0, s = c0 :: r0 ∧ isAsciiAlpha c0 = true)
    (hsc : ∀ c ∈ s, isSchemeChar c = true ∧ lowerChar c = c)
    (hr : ∀ c ∈ r, badUrlChar c = false) : PartsWF p := by
  unfold urlsplitSub at h
  by_cases htk : r.take 2 = ['/', '/']
  · rw [if_pos htk] at h
    unfold urlsplitNetlocSub at h
    by_cases hbr : ((r.drop 2).takeWhile (fun c => !urlNetlocEnd c)).contains '[' ≠
        ((r.drop 2).takeWhile (fun c => !urlNetlocEnd c)).contains ']'
    · rw [if_pos hbr] at h
      exact absurd h (by simp)
    · rw [if_neg hbr] at h
      simp only [Except.ok.injEq] at h
      subst h
      have hnl : ∀ c ∈ (r.drop 2).takeWhile (fun c => !urlNetlocEnd c),
          urlNetlocEnd c = false ∧ badUrlChar c = false := by
        intro c hc
        constructor
        · have := List.mem_takeWhile_imp hc
          simpa using this
        · exact hr c (List.drop_subset 2 r ((List.takeWhile_sublist _).subset hc))
      have hr2 : ∀ c ∈ (r.drop 2).dropWhile (fun c => !urlNetlocEnd c),
          badUrlChar c = false := by
        intro c hc
        exact hr c (List.drop_subset 2 r ((List.dropWhile_sublist _).subset hc))
      have hr2shape : (r.drop 2).dropWhile (fun c => !urlNetlocEnd c) = [] ∨
          ∃ c t2, (r.drop 2).dropWhile (fun c => !urlNetlocEnd c) = c :: t2 ∧
            urlNetlocEnd c = true := by
        cases hd : (r.drop 2).dropWhile (fun c => !urlNetlocEnd c) with
        | nil => exact Or.inl rfl
        | cons c t2 =>
          right
          refine ⟨c, t2, rfl, ?_⟩
          have := dropWhile_head_false hd
          simpa using this
      exact ⟨hshape, hsc, hnl, not_ne_iff.mp hbr, fragQuerySplit_path_chars hr2,
        fun _ => fragQuerySplit_path_shape hr2shape⟩
  · rw [if_neg htk] at h
    simp only [Except.ok.injEq] at h
    subst h
    refine ⟨hshape, hsc,
      fun c hc => absurd (show c ∈ ([] : List Char) from hc) (by simp), rfl,
      fragQuerySplit_path_chars hr, ?_⟩
    intro hne
    exact absurd rfl hne

theorem urlsplit_wf {cs0 : List Char} {p : UrlParts} (h : urlsplitPy cs0 = .ok p) :
    PartsWF p := by
  have hbad : ∀ c ∈ removeUnsafe cs0, badUrlChar c = false := by
    intro c hc
    have hm := List.mem_filter.mp hc
    simpa using hm.2
  unfold urlsplitPy at h
  rcases schemeSplit_cases (removeUnsafe cs0) with hss |
    ⟨pre, post, hsp, hss, ⟨c0, r0, hpre, ha⟩, hpresc⟩
  · rw [hss] at h
    exact urlsplitSub_wf h (Or.inl rfl) (by simp) hbad
  · rw [hss] at h
    have hdecomp := (splitAtFirst_sound hsp).1
    refine urlsplitSub_wf h ?_ ?_ ?_
    · right
      subst hpre
      exact ⟨lowerChar c0, lowerStr r0, rfl, isAsciiAlpha_lowerChar ha⟩
    · intro c hc
      obtain ⟨c2, hc2m, hc2e⟩ := List.mem_map.mp hc
      subst hc2e
      exact ⟨isSchemeChar_lowerChar (hpresc c2 hc2m), lowerChar_idem c2⟩
    · intro c hc
      apply hbad
      rw [hdecomp]
      exact List.mem_append_right pre (List.mem_cons_of_mem ':' hc)

theorem pySplitParams_eq_semi {p0 a b : List Char} (hl : splitAtLast '/' p0 = some (a, b)) :
    pySplitParams p0 = pySplitSemi p0 a b := by
  unfold pySplitParams
  rw [hl]

theorem pySplitParams_eq_noslash {p0 : List Char} (hl : splitAtLast '/' p0 = none) :
    pySplitParams p0 = pySplitNoSlash p0 := by
  unfold pySplitParams
  rw [hl]

theorem pySplitSemi_eq_some {p0 a b b1 b2 : List Char} (hf : splitAtFirst ';' b = some (b1, b2)) :
    pySplitSemi p0 a b = a ++ '/' :: b1 := by
  unfold pySplitSemi
  rw [hf]

theorem pySplitSemi_eq_none {p0 a b : List Char} (hf : splitAtFirst ';' b = none) :
    pySplitSemi p0 a b = p0 := by
  unfold pySplitSemi
  rw [hf]

theorem pySplitNoSlash_eq_some {p0 p1 p2 : List Char} (hf : splitAtFirst ';' p0 = some (p1, p2)) :
    pySplitNoSlash p0 = p1 := by
  unfold pySplitNoSlash
  rw [hf]

theorem pySplitNoSlash_eq_none {p0 : List Char} (hf : splitAtFirst ';' p0 = none) :
    pySplitNoSlash p0 = p0 := by
  unfold pySplitNoSlash
  rw [hf]

theorem pySplitParams_mem {p0 : List Char} : ∀ c ∈ pySplitParams p0, c = '/' ∨ c ∈ p0 := by
  intro c hc
  cases hl : splitAtLast '/' p0 with
  | some ab =>
    obtain ⟨a, b⟩ := ab
    rw [pySplitParams_eq_semi hl] at hc
    obtain ⟨hdec, _⟩ := splitAtLast_sound hl
    cases hf : splitAtFirst ';' b with
    | some q =>
      obtain ⟨b1, b2⟩ := q
      rw [pySplitSemi_eq_some hf] at hc
      obtain ⟨hbdec, _⟩ := splitAtFirst_sound hf
      simp only [List.mem_append, List.mem_cons] at hc
      rcases hc with hm | (he | hm)
      · right
        rw [hdec]
        exact List.mem_append_left _ hm
      · exact Or.inl he
      · right
        rw [hdec, hbdec]
        refine List.mem_append_right _ (List.mem_cons_of_mem '/' ?_)
        exact List.mem_append_left _ hm
    | none =>
      rw [pySplitSemi_eq_none hf] at hc
      exact Or.inr hc
  | none =>
    rw [pySplitParams_eq_noslash hl] at hc
    cases hf : splitAtFirst ';' p0 with
    | some q =>
      obtain ⟨p1, p2⟩ := q
      rw [pySplitNoSlash_eq_some hf] at hc
      obtain ⟨hdec, _⟩ := splitAtFirst_sound hf
      right
      rw [hdec]
      exact List.mem_append_left _ hc
    | none =>
      rw [pySplitNoSlash_eq_none hf] at hc
      exact Or.inr hc

theorem pySplitParams_shape {p0 t2 : List Char} (h : p0 = '/' :: t2) :
    pySplitParams p0 = [] ∨ ∃ u, pySplitParams p0 = '/' :: u := by
  cases hl : splitAtLast '/' p0 with
  | some ab =>
    obtain ⟨a, b⟩ := ab
    rw [pySplitParams_eq_semi hl]
    obtain ⟨hdec, _⟩ := splitAtLast_sound hl
    cases hf : splitAtFirst ';' b with
    | some q =>
      obtain ⟨b1, b2⟩ := q
      rw [pySplitSemi_eq_some hf]
      cases ha : a with
      | nil => exact Or.inr ⟨b1, by simp⟩
      | cons a0 a1 =>
        right
        subst ha
        rw [h] at hdec
        simp only [List.cons_append, List.cons.injEq] at hdec
        refine ⟨a1 ++ '/' :: b1, ?_⟩
        rw [← hdec.1]
        rfl
    | none =>
      rw [pySplitSemi_eq_none hf]
      exact Or.inr ⟨t2, h⟩
  | none =>
    exact absurd (show ('/' : Char) ∈ p0 by rw [h]; simp)
      (not_mem_of_splitAtLast_eq_none hl)

theorem pySplitParams_length (p0 : List Char) : (pySplitParams p0).length ≤ p0.length := by
  cases hl : splitAtLast '/' p0 with
  | some ab =>
    obtain ⟨a, b⟩ := ab
    rw [pySplitParams_eq_semi hl]
    obtain ⟨hdec, _⟩ := splitAtLast_sound hl
    cases hf : splitAtFirst ';' b with
    | some q =>
      obtain ⟨b1, b2⟩ := q
      rw [pySplitSemi_eq_some hf]
      obtain ⟨hbdec, _⟩ := splitAtFirst_sound hf
      rw [hdec, hbdec]
      simp [List.length_append]
    | none =>
      rw [pySplitSemi_eq_none hf]
  | none =>
    rw [pySplitParams_eq_noslash hl]
    cases hf : splitAtFirst ';' p0 with
    | some q =>
      obtain ⟨p1, p2⟩ := q
      rw [pySplitNoSlash_eq_some hf]
      obtain ⟨hdec, _⟩ := splitAtFirst_sound hf
      rw [hdec]
      simp [List.length_append]
    | none =>
      rw [pySplitNoSlash_eq_none hf]


theorem urlparsePy_eq_of_split {cs0 : List Char} {sp : UrlParts}
    (hsp : urlsplitPy cs0 = .ok sp) :
    urlparsePy cs0 =
      if usesParams.contains sp.scheme ∧ sp.path.contains ';' then
        .ok { sp with path := pySplitParams sp.path }
      else .ok sp := by
  unfold urlparsePy
  rw [hsp]

theorem urlparse_cases (cs0 : List Char) {sp : UrlParts}
    (hsp : urlsplitPy cs0 = .ok sp) :
    urlparsePy cs0 = .ok sp ∨
      urlparsePy cs0 = .ok { sp with path := pySplitParams sp.path } := by
  rw [urlparsePy_eq_of_split hsp]
  by_cases hc : usesParams.contains sp.scheme ∧ sp.path.contains ';'
  · right
    rw [if_pos hc]
  · left
    rw [if_neg hc]

theorem urlparse_wf {cs0 : List Char} {p : UrlParts} (h : urlparsePy cs0 = .ok p) :
    PartsWF p := by
  cases hsp : urlsplitPy cs0 with
  | error e =>
    unfold urlparsePy at h
    rw [hsp] at h
    exact absurd h (by simp)
  | ok sp =>
    rw [urlparsePy_eq_of_split hsp] at h
    have hwf := urlsplit_wf hsp
    by_cases hc : usesParams.contains sp.scheme ∧ sp.path.contains ';'
    · rw [if_pos hc] at h
      simp only [Except.ok.injEq] at h
      subst h
      refine ⟨hwf.scheme_shape, hwf.scheme_chars, hwf.netloc_chars, hwf.netloc_brackets, ?_, ?_⟩
      · intro c hcm
        rcases pySplitParams_mem c hcm with he | hm
        · subst he
          exact ⟨by decide, by decide, by decide⟩
        · exact hwf.path_chars c hm
      · intro hne
        rcases hwf.path_shape hne with hnil | ⟨t2, hcons⟩
        · left
          show pySplitParams sp.path = []
          rw [hnil]
          rfl
        · exact pySplitParams_shape hcons
    · rw [if_neg hc] at h
      simp only [Except.ok.injEq] at h
      subst h
      exact hwf

/-! Facts about `stripApplySuffix` and the rebuilt Lever/Greenhouse URLs. -/

theorem stripApplySuffix_take (p : List Char) : ∃ n, stripApplySuffix p = p.take n := by
  unfold stripApplySuffix
  by_cases h7 : "/apply/".data.isSuffixOf p
  · rw [if_pos h7]
    exact ⟨p.length - 7, rfl⟩
  · rw [if_neg h7]
    by_cases h6 : "/apply".data.isSuffixOf p
    · rw [if_pos h6]
      exact ⟨p.length - 6, rfl⟩
    · rw [if_neg h6]
      exact ⟨p.length, (List.take_length p).symm⟩

theorem stripApplySuffix_length_lt {p : List Char} (h : stripApplySuffix p ≠ p) :
    (stripApplySuffix p).length < p.length := by
  unfold stripApplySuffix at h ⊢
  by_cases h7 : "/apply/".data.isSuffixOf p
  · rw [if_pos h7] at h ⊢
    have hsuf : "/apply/".data <:+ p := List.isSuffixOf_iff_suffix.mp h7
    have hle : 7 ≤ p.length := by
      have := hsuf.length_le
      simpa using this
    rw [List.length_take, Nat.min_eq_left (Nat.sub_le _ _)]
    omega
  · rw [if_neg h7] at h ⊢
    by_cases h6 : "/apply".data.isSuffixOf p
    · rw [if_pos h6] at h ⊢
      have hsuf : "/apply".data <:+ p := List.isSuffixOf_iff_suffix.mp h6
      have hle : 6 ≤ p.length := by
        have := hsuf.length_le
        simpa using this
      rw [List.length_take, Nat.min_eq_left (Nat.sub_le _ _)]
      omega
    · rw [if_neg h6] at h
      exact absurd rfl h

theorem take_shape {p0 t2 : List Char} (h : p0 = '/' :: t2) (n : Nat) :
    p0.take n = [] ∨ ∃ u, p0.take n = '/' :: u := by
  cases n with
  | zero => exact Or.inl rfl
  | succ m =>
    right
    rw [h]
    exact ⟨t2.take m, rfl⟩

theorem resolveLeverParsed_spec (url : List Char) (parts : UrlParts) :
    resolveLeverParsed url parts = (url, false) ∨
    (containsSub "lever.co".data (lowerStr parts.netloc) = true ∧
     stripApplySuffix parts.path ≠ parts.path ∧
     resolveLeverParsed url parts =
       (parts.scheme ++ "://".data ++ parts.netloc ++ stripApplySuffix parts.path, true)) := by
  unfold resolveLeverParsed
  obtain hb | hb := Bool.eq_false_or_eq_true (containsSub "lever.co".data (lowerStr parts.netloc))
  · rw [if_neg (show ¬((!containsSub "lever.co".data (lowerStr parts.netloc)) = true) from
      fun he => by rw [hb] at he; exact Bool.noConfusion he)]
    by_cases hst : stripApplySuffix parts.path ≠ parts.path
    · right
      rw [if_pos hst]
      exact ⟨hb, hst, rfl⟩
    · left
      rw [if_neg hst]
  · left
    rw [if_pos (show (!containsSub "lever.co".data (lowerStr parts.netloc)) = true from by
      rw [hb]; decide)]

theorem resolveGreenhouseParsed_spec (url : List Char) (parts : UrlParts) :
    resolveGreenhouseParsed url parts = (url, false) ∨
    (containsSub "boards.greenhouse.io".data (lowerStr parts.netloc) = false ∧
     ∃ tail, resolveGreenhouseParsed url parts
       = ("https://boards.greenhouse.io/".data ++ tail, true)) := by
  unfold resolveGreenhouseParsed
  obtain hb | hb := Bool.eq_false_or_eq_true
    (containsSub "boards.greenhouse.io".data (lowerStr parts.netloc))
  · left
    rw [if_pos hb]
  · rw [if_neg (show ¬(containsSub "boards.greenhouse.io".data (lowerStr parts.netloc) = true)
      from fun he => by rw [hb] at he; exact Bool.noConfusion he)]
    cases hq : qsFirst "gh_jid".data (parse_qsl parts.query) with
    | some job_id =>
      cases ht : truthyOpt (extractGreenhouseCompany url (parse_qsl parts.query)) with
      | some token =>
        right
        refine ⟨hb, token ++ ("/jobs/".data ++ job_id), ?_⟩
        show (ghCanonical token job_id, true) = _
        rw [← List.append_assoc, ← List.append_assoc]
        rfl
      | none =>
        right
        refine ⟨hb, "embed/job_app?token=".data ++ job_id, ?_⟩
        show (ghEmbedUrl job_id, true) = _
        rw [← List.append_assoc,
          show "https://boards.greenhouse.io/".data ++ "embed/job_app?token=".data
            = "https://boards.greenhouse.io/embed/job_app?token=".data from by decide]
        rfl
    | none =>
      by_cases htk : qsHasKey "token".data (parse_qsl parts.query) = true ∧
          containsSub "greenhouse".data (lowerStr url) = true
      · rw [if_pos htk]
        cases hqt : qsFirst "token".data (parse_qsl parts.query) with
        | some token =>
          right
          refine ⟨hb, "embed/job_app?token=".data ++ token, ?_⟩
          show (ghEmbedUrl token, true) = _
          rw [← List.append_assoc,
            show "https://boards.greenhouse.io/".data ++ "embed/job_app?token=".data
              = "https://boards.greenhouse.io/embed/job_app?token=".data from by decide]
          rfl
        | none =>
          left
          rfl
      · rw [if_neg htk]
        cases hj : jobsPathId url with
        | some job_id =>
          cases ht : truthyOpt (extractGreenhouseCompany url (parse_qsl parts.query)) with
          | some token =>
            right
            refine ⟨hb, token ++ ("/jobs/".data ++ job_id), ?_⟩
            show (ghCanonical token job_id, true) = _
            rw [← List.append_assoc, ← List.append_assoc]
            rfl
          | none =>
            left
            rfl
        | none =>
          left
          rfl

theorem urlparse_gh_prefix (s : List Char) :
    ∃ p, urlparsePy ("https://boards.greenhouse.io/".data ++ s) = .ok p ∧
      p.netloc = "boards.greenhouse.io".data := by
  have hfil : removeUnsafe ("https://boards.greenhouse.io/".data ++ s)
      = "https://boards.greenhouse.io/".data ++ removeUnsafe s := by
    unfold removeUnsafe
    rw [List.filter_append]
    congr 1
  have hsplit : splitAtFirst ':' ("https://boards.greenhouse.io/".data ++ removeUnsafe s)
      = some ("https".data, "//boards.greenhouse.io/".data ++ removeUnsafe s) := by
    have hdec : "https://boards.greenhouse.io/".data ++ removeUnsafe s
        = "https".data ++ ':' :: ("//boards.greenhouse.io/".data ++ removeUnsafe s) := by
      rw [show "https://boards.greenhouse.io/".data
          = "https".data ++ ':' :: "//boards.greenhouse.io/".data from by decide]
      simp [List.append_assoc]
    rw [hdec]
    exact splitAtFirst_append_not_mem _ (by decide)
  have hss : schemeSplit ("https://boards.greenhouse.io/".data ++ removeUnsafe s)
      = ("https".data, "//boards.greenhouse.io/".data ++ removeUnsafe s) := by
    unfold schemeSplit
    rw [hsplit]
    show (if isAsciiAlpha 'h' && ("https".data).all isSchemeChar
          then (lowerStr "https".data, "//boards.greenhouse.io/".data ++ removeUnsafe s)
          else ([], "https://boards.greenhouse.io/".data ++ removeUnsafe s))
        = ("https".data, "//boards.greenhouse.io/".data ++ removeUnsafe s)
    rw [if_pos (by decide), show lowerStr "https".data = "https".data from by decide]
  have hX : "//boards.greenhouse.io/".data ++ removeUnsafe s
      = '/' :: '/' :: ("boards.greenhouse.io".data ++ '/' :: removeUnsafe s) := by
    rw [show "//boards.greenhouse.io/".data
        = '/' :: '/' :: ("boards.greenhouse.io".data ++ ['/']) from by decide]
    simp [List.append_assoc]
  have htw : ("boards.greenhouse.io".data ++ '/' :: removeUnsafe s).takeWhile
      (fun c => !urlNetlocEnd c) = "boards.greenhouse.io".data := by
    rw [takeWhile_append_all _ (by decide), takeWhile_cons_false (by decide)]
    simp
  have hdw : ("boards.greenhouse.io".data ++ '/' :: removeUnsafe s).dropWhile
      (fun c => !urlNetlocEnd c) = '/' :: removeUnsafe s := by
    rw [dropWhile_append_all _ (by decide), dropWhile_cons_false (by decide)]
  have hurl : urlsplitPy ("https://boards.greenhouse.io/".data ++ s)
      = .ok (fragQuerySplit "https".data "boards.greenhouse.io".data ('/' :: removeUnsafe s)) := by
    unfold urlsplitPy
    rw [hfil, hss]
    show urlsplitSub "https".data ("//boards.greenhouse.io/".data ++ removeUnsafe s) = _
    unfold urlsplitSub
    rw [hX]
    rw [if_pos (show (('/' :: '/' :: ("boards.greenhouse.io".data ++ '/' :: removeUnsafe s)).take 2)
      = ['/', '/'] from rfl)]
    show urlsplitNetlocSub "https".data
        (("boards.greenhouse.io".data ++ '/' :: removeUnsafe s).takeWhile (fun c => !urlNetlocEnd c))
        (("boards.greenhouse.io".data ++ '/' :: removeUnsafe s).dropWhile (fun c => !urlNetlocEnd c))
      = _
    rw [htw, hdw]
    unfold urlsplitNetlocSub
    rw [if_neg (by decide)]
  rcases urlparse_cases ("https://boards.greenhouse.io/".data ++ s) hurl with hp | hp
  · exact ⟨_, hp, rfl⟩
  · exact ⟨_, hp, rfl⟩

theorem urlparse_rebuilt (scheme nl clean : List Char)
    (hsch : ∃ c0 r0, scheme = c0 :: r0 ∧ isAsciiAlpha c0 = true)
    (hsc : ∀ c ∈ scheme, isSchemeChar c = true ∧ lowerChar c = c)
    (hnl : ∀ c ∈ nl, urlNetlocEnd c = false ∧ badUrlChar c = false)
    (hbr : nl.contains '[' = nl.contains ']')
    (hpc : ∀ c ∈ clean, c ≠ '?' ∧ c ≠ '#' ∧ badUrlChar c = false)
    (hps : clean = [] ∨ ∃ u, clean = '/' :: u) :
    ∃ p2, urlparsePy (scheme ++ "://".data ++ nl ++ clean) = .ok p2 ∧
      p2.netloc = nl ∧ p2.path.length ≤ clean.length := by
  obtain ⟨c0, r0, hs0, ha⟩ := hsch
  subst hs0
  have hfil : removeUnsafe ((c0 :: r0) ++ "://".data ++ nl ++ clean)
      = (c0 :: r0) ++ "://".data ++ nl ++ clean := by
    unfold removeUnsafe
    rw [List.filter_eq_self]
    intro c hc
    simp only [List.mem_append] at hc
    rcases hc with ((h1 | h2) | h3) | h4
    · simp [(isSchemeChar_not_special (hsc c h1).1).2.2.2.2]
    · have hb2 : ∀ x ∈ "://".data, badUrlChar x = false := by decide
      simp [hb2 c h2]
    · simp [(hnl c h3).2]
    · simp [(hpc c h4).2.2]
  have hdec : (c0 :: r0) ++ "://".data ++ nl ++ clean
      = (c0 :: r0) ++ ':' :: ('/' :: '/' :: (nl ++ clean)) := by
    rw [show "://".data = ':' :: '/' :: '/' :: ([] : List Char) from rfl]
    simp [List.append_assoc]
  have hnc : ':' ∉ c0 :: r0 := fun hm => (isSchemeChar_not_special (hsc ':' hm).1).1 rfl
  have hsplit : splitAtFirst ':' ((c0 :: r0) ++ "://".data ++ nl ++ clean)
      = some (c0 :: r0, '/' :: '/' :: (nl ++ clean)) := by
    rw [hdec]
    exact splitAtFirst_append_not_mem _ hnc
  have hall : (c0 :: r0).all isSchemeChar = true :=
    List.all_eq_true.mpr (fun c hc => (hsc c hc).1)
  have hlow : lowerStr (c0 :: r0) = c0 :: r0 := map_eq_self_of (fun c hc => (hsc c hc).2)
  have hss : schemeSplit ((c0 :: r0) ++ "://".data ++ nl ++ clean)
      = (c0 :: r0, '/' :: '/' :: (nl ++ clean)) := by
    unfold schemeSplit
    rw [hsplit]
    show (if isAsciiAlpha c0 && (c0 :: r0).all isSchemeChar
          then (lowerStr (c0 :: r0), '/' :: '/' :: (nl ++ clean))
          else ([], (c0 :: r0) ++ "://".data ++ nl ++ clean))
        = (c0 :: r0, '/' :: '/' :: (nl ++ clean))
    rw [if_pos (Bool.and_eq_true_iff.mpr ⟨ha, hall⟩), hlow]
  have htk : ('/' :: '/' :: (nl ++ clean)).take 2 = ['/', '/'] := rfl
  have htw : (nl ++ clean).takeWhile (fun c => !urlNetlocEnd c) = nl := by
    rw [takeWhile_append_all _ (fun x hx => by simp [(hnl x hx).1])]
    rcases hps with rfl | ⟨u, rfl⟩
    · simp
    · rw [takeWhile_cons_false (by decide)]
      simp
  have hdw : (nl ++ clean).dropWhile (fun c => !urlNetlocEnd c) = clean := by
    rw [dropWhile_append_all _ (fun x hx => by simp [(hnl x hx).1])]
    rcases hps with rfl | ⟨u, rfl⟩
    · rfl
    · rw [dropWhile_cons_false (by decide)]
  have hq1 : splitAtFirstD '#' clean = (clean, []) :=
    splitAtFirstD_of_not_mem (fun hm => (hpc '#' hm).2.1 rfl)
  have hq2 : splitAtFirstD '?' clean = (clean, []) :=
    splitAtFirstD_of_not_mem (fun hm => (hpc '?' hm).1 rfl)
  have hfq : fragQuerySplit (c0 :: r0) nl clean = ⟨c0 :: r0, nl, clean, [], []⟩ := by
    unfold fragQuerySplit
    rw [hq1]
    show (⟨c0 :: r0, nl, (splitAtFirstD '?' clean).1, (splitAtFirstD '?' clean).2, []⟩ : UrlParts)
      = ⟨c0 :: r0, nl, clean, [], []⟩
    rw [hq2]
  have hurl : urlsplitPy ((c0 :: r0) ++ "://".data ++ nl ++ clean)
      = .ok (⟨c0 :: r0, nl, clean, [], []⟩ : UrlParts) := by
    unfold urlsplitPy
    rw [hfil, hss]
    show urlsplitSub (c0 :: r0) ('/' :: '/' :: (nl ++ clean)) = _
    unfold urlsplitSub
    rw [if_pos htk]
    show urlsplitNetlocSub (c0 :: r0)
        ((nl ++ clean).takeWhile (fun c => !urlNetlocEnd c))
        ((nl ++ clean).dropWhile (fun c => !urlNetlocEnd c)) = _
    rw [htw, hdw]
    unfold urlsplitNetlocSub
    rw [if_neg (not_ne_iff.mpr hbr), hfq]
  rcases urlparse_cases _ hurl with hp | hp
  · exact ⟨_, hp, rfl, le_refl _⟩
  · exact ⟨_, hp, rfl, pySplitParams_length clean⟩

theorem urlparse_rebuilt_noscheme (nl clean : List Char)
    (hnl : ∀ c ∈ nl, urlNetlocEnd c = false ∧ badUrlChar c = false)
    (hpc : ∀ c ∈ clean, c ≠ '?' ∧ c ≠ '#' ∧ badUrlChar c = false) :
    ∃ p2, urlparsePy ("://".data ++ nl ++ clean) = .ok p2 ∧ p2.netloc = [] := by
  have hfil : removeUnsafe ("://".data ++ nl ++ clean) = "://".data ++ nl ++ clean := by
    unfold removeUnsafe
    rw [List.filter_eq_self]
    intro c hc
    simp only [List.mem_append] at hc
    rcases hc with (h2 | h3) | h4
    · have hb2 : ∀ x ∈ "://".data, badUrlChar x = false := by decide
      simp [hb2 c h2]
    · simp [(hnl c h3).2]
    · simp [(hpc c h4).2.2]
  have hdec : "://".data ++ nl ++ clean = ':' :: ('/' :: '/' :: (nl ++ clean)) := by
    rw [show "://".data = ':' :: '/' :: '/' :: ([] : List Char) from rfl]
    simp [List.append_assoc]
  have hss : schemeSplit ("://".data ++ nl ++ clean) = ([], "://".data ++ nl ++ clean) := by
    have hsplit : splitAtFirst ':' ("://".data ++ nl ++ clean)
        = some ([], '/' :: '/' :: (nl ++ clean)) := by
      rw [hdec]
      unfold splitAtFirst
      rw [if_pos rfl]
    unfold schemeSplit
    rw [hsplit]
  have hurl : urlsplitPy ("://".data ++ nl ++ clean)
      = .ok (fragQuerySplit [] [] ("://".data ++ nl ++ clean)) := by
    unfold urlsplitPy
    rw [hfil, hss]
    show urlsplitSub [] ("://".data ++ nl ++ clean) = _
    unfold urlsplitSub
    rw [if_neg (show ¬(("://".data ++ nl ++ clean).take 2 = ['/', '/']) from by
      intro h
      rw [hdec, show List.take 2 (':' :: '/' :: '/' :: (nl ++ clean)) = [':', '/'] from rfl] at h
      exact absurd h (by decide))]
  rcases urlparse_cases _ hurl with hp | hp
  · exact ⟨_, hp, rfl⟩
  · exact ⟨_, hp, rfl⟩

theorem gh_rebuilt_ne {url : List Char} {parts : UrlParts}
    (hp : urlparsePy url = .ok parts)
    (hb : containsSub "boards.greenhouse.io".data (lowerStr parts.netloc) = false)
    (tail : List Char) :
    "https://boards.greenhouse.io/".data ++ tail ≠ url := by
  intro he
  obtain ⟨p2, hp2, hnet⟩ := urlparse_gh_prefix tail
  rw [he, hp] at hp2
  simp only [Except.ok.injEq] at hp2
  rw [← hp2] at hnet
  rw [hnet] at hb
  exact absurd hb (by decide)

theorem lever_rebuilt_ne {url : List Char} {parts : UrlParts}
    (hp : urlparsePy url = .ok parts)
    (hlev : containsSub "lever.co".data (lowerStr parts.netloc) = true)
    (hst : stripApplySuffix parts.path ≠ parts.path) :
    parts.scheme ++ "://".data ++ parts.netloc ++ stripApplySuffix parts.path ≠ url := by
  have hwf := urlparse_wf hp
  have hnlne : parts.netloc ≠ [] := by
    intro h0
    rw [h0] at hlev
    exact absurd hlev (by decide)
  have hlt : (stripApplySuffix parts.path).length < parts.path.length :=
    stripApplySuffix_length_lt hst
  obtain ⟨n, hn⟩ := stripApplySuffix_take parts.path
  have hclean_chars : ∀ c ∈ stripApplySuffix parts.path,
      c ≠ '?' ∧ c ≠ '#' ∧ badUrlChar c = false := by
    intro c hc
    rw [hn] at hc
    exact hwf.path_chars c (List.take_subset n _ hc)
  have hclean_shape : stripApplySuffix parts.path = [] ∨
      ∃ u, stripApplySuffix parts.path = '/' :: u := by
    rcases hwf.path_shape hnlne with hp0 | ⟨t2, hp2⟩
    · left
      rw [hn, hp0]
      exact List.take_nil
    · rw [hn]
      exact take_shape hp2 n
  intro he
  rcases hwf.scheme_shape with hs0 | hsch
  · obtain ⟨p2, hp2, hnet2⟩ := urlparse_rebuilt_noscheme parts.netloc
      (stripApplySuffix parts.path) hwf.netloc_chars hclean_chars
    rw [hs0] at he
    have he2 : "://".data ++ parts.netloc ++ stripApplySuffix parts.path = url := by
      simpa using he
    rw [he2, hp] at hp2
    simp only [Except.ok.injEq] at hp2
    rw [← hp2] at hnet2
    exact hnlne hnet2
  · obtain ⟨p2, hp2, hnet2, hplen⟩ := urlparse_rebuilt parts.scheme parts.netloc
      (stripApplySuffix parts.path) hsch hwf.scheme_chars hwf.netloc_chars
      hwf.netloc_brackets hclean_chars hclean_shape
    rw [he, hp] at hp2
    simp only [Except.ok.injEq] at hp2
    rw [← hp2] at hplen
    omega

theorem resolve_lever_iff {url r : List Char} {b : Bool}
    (h : resolve_lever_url url = .ok (r, b)) : b = true ↔ r ≠ url := by
  unfold resolve_lever_url at h
  cases hp : urlparsePy url with
  | error e =>
    rw [hp] at h
    exact absurd h (by simp)
  | ok parts =>
    rw [hp] at h
    simp only [Except.ok.injEq] at h
    rcases resolveLeverParsed_spec url parts with hs | ⟨hlev, hst, hs⟩
    · rw [hs] at h
      simp only [Prod.mk.injEq] at h
      obtain ⟨h1, h2⟩ := h
      subst h1
      subst h2
      simp
    · rw [hs] at h
      simp only [Prod.mk.injEq] at h
      obtain ⟨h1, h2⟩ := h
      subst h1
      subst h2
      constructor
      · intro _
        exact lever_rebuilt_ne hp hlev hst
      · intro _
        rfl

theorem resolve_greenhouse_iff {url r : List Char} {b : Bool}
    (h : resolve_greenhouse_url url = .ok (r, b)) : b = true ↔ r ≠ url := by
  unfold resolve_greenhouse_url at h
  cases hp : urlparsePy url with
  | error e =>
    rw [hp] at h
    exact absurd h (by simp)
  | ok parts =>
    rw [hp] at h
    simp only [Except.ok.injEq] at h
    rcases resolveGreenhouseParsed_spec url parts with hs | ⟨hb, tail, hs⟩
    · rw [hs] at h
      simp only [Prod.mk.injEq] at h
      obtain ⟨h1, h2⟩ := h
      subst h1
      subst h2
      simp
    · rw [hs] at h
      simp only [Prod.mk.injEq] at h
      obtain ⟨h1, h2⟩ := h
      subst h1
      subst h2
      constructor
      · intro _
        exact gh_rebuilt_ne hp hb tail
      · intro _
        rfl

/-- C10: whenever `resolve_lever_url` removes a trailing apply segment (reports
`was_resolved = true`), the returned URL is rebuilt from only the scheme, host
and trimmed path of the parsed input; since none of those components can hold a
`?` or a `#`, any query string or fragment of the input URL is discarded. -/
theorem c10_lever_rebuild_discards_query (url r : List Char)
    (h : resolve_lever_url url = .ok (r, true)) :
    ∃ parts, urlparsePy url = .ok parts ∧
      r = parts.scheme ++ "://".data ++ parts.netloc ++ stripApplySuffix parts.path ∧
      '?' ∉ r ∧ '#' ∉ r := by
  unfold resolve_lever_url at h
  cases hp : urlparsePy url with
  | error e =>
    rw [hp] at h
    exact absurd h (by simp)
  | ok parts =>
    rw [hp] at h
    simp only [Except.ok.injEq] at h
    have hwf := urlparse_wf hp
    rcases resolveLeverParsed_spec url parts with hs | ⟨hlev, hst, hs⟩
    · rw [hs] at h
      simp only [Prod.mk.injEq] at h
      exact absurd h.2 (by decide)
    · rw [hs] at h
      simp only [Prod.mk.injEq] at h
      obtain ⟨h1, _⟩ := h
      subst h1
      obtain ⟨n, hn⟩ := stripApplySuffix_take parts.path
      refine ⟨parts, rfl, rfl, ?_, ?_⟩
      · intro hm
        simp only [List.mem_append] at hm
        rcases hm with ((m1 | m2) | m3) | m4
        · exact absurd (hwf.scheme_chars _ m1).1 (by decide)
        · exact absurd m2 (by decide)
        · exact absurd (hwf.netloc_chars _ m3).1 (by decide)
        · rw [hn] at m4
          exact (hwf.path_chars _ (List.take_subset n _ m4)).1 rfl
      · intro hm
        simp only [List.mem_append] at hm
        rcases hm with ((m1 | m2) | m3) | m4
        · exact absurd (hwf.scheme_chars _ m1).1 (by decide)
        · exact absurd m2 (by decide)
        · exact absurd (hwf.netloc_chars _ m3).1 (by decide)
        · rw [hn] at m4
          exact (hwf.path_chars _ (List.take_subset n _ m4)).2.1 rfl

theorem c10_witness :
    ∃ parts, urlparsePy "https://jobs.lever.co/acme/xyz/apply?x=1".data = .ok parts ∧
      "https://jobs.lever.co/acme/xyz".data
        = parts.scheme ++ "://".data ++ parts.netloc ++ stripApplySuffix parts.path ∧
      '?' ∉ "https://jobs.lever.co/acme/xyz".data ∧
      '#' ∉ "https://jobs.lever.co/acme/xyz".data :=
  c10_lever_rebuild_discards_query _ _ (by rfl)

/-- C6 counterexample: stripping is one segment per call, so `resolve_lever_url`
is not idempotent. On `https://jobs.lever.co/acme/apply/apply` one application
returns `https://jobs.lever.co/acme/apply`, and applying the function to that
output strips again, returning `https://jobs.lever.co/acme` — not the same
result as applying it once. -/
theorem c6_counterexample_not_idempotent :
    resolve_lever_url "https://jobs.lever.co/acme/apply/apply".data
      = .ok ("https://jobs.lever.co/acme/apply".data, true) ∧
    resolve_lever_url "https://jobs.lever.co/acme/apply".data
      = .ok ("https://jobs.lever.co/acme".data, true) :=
  ⟨rfl, rfl⟩

/-- C6 (amended): `resolve_lever_url` strips one trailing apply segment per
call, so it is not idempotent on paths stacking several apply segments (see the
counterexample). Re-application is the identity exactly on URLs whose parsed
path is already strip-stable: there the function returns its input unchanged
with `was_resolved = false`. -/
theorem c6_strip_fixed_point (r : List Char) (parts2 : UrlParts)
    (hp2 : urlparsePy r = .ok parts2)
    (hfix : stripApplySuffix parts2.path = parts2.path) :
    resolve_lever_url r = .ok (r, false) := by
  unfold resolve_lever_url
  rw [hp2]
  show Except.ok (resolveLeverParsed r parts2) = .ok (r, false)
  unfold resolveLeverParsed
  obtain hb | hb := Bool.eq_false_or_eq_true (containsSub "lever.co".data (lowerStr parts2.netloc))
  · rw [if_neg (show ¬((!containsSub "lever.co".data (lowerStr parts2.netloc)) = true) from
      fun he => by rw [hb] at he; exact Bool.noConfusion he),
      if_neg (show ¬(stripApplySuffix parts2.path ≠ parts2.path) from not_ne_iff.mpr hfix)]
  · rw [if_pos (show (!containsSub "lever.co".data (lowerStr parts2.netloc)) = true from by
      rw [hb]; decide)]

theorem c6_witness :
    resolve_lever_url "https://jobs.lever.co/acme/xyz".data
      = .ok ("https://jobs.lever.co/acme/xyz".data, false) :=
  c6_strip_fixed_point "https://jobs.lever.co/acme/xyz".data
    ⟨"https".data, "jobs.lever.co".data, "/acme/xyz".data, [], []⟩ rfl rfl

/-- C9: `resolve_url` returns `was_resolved = true` exactly when the returned
URL differs from the input URL: every branch that reports false returns the
original URL unchanged, and every branch that reports true returns a URL
distinct from the input. -/
theorem c9_resolved_iff_changed (url : List Char) (source : String)
    (r : List Char) (b : Bool) (h : resolve_url url source = .ok (r, b)) :
    b = true ↔ r ≠ url := by
  unfold resolve_url at h
  by_cases h1 : source = "greenhouse"
  · rw [if_pos h1] at h
    exact resolve_greenhouse_iff h
  · rw [if_neg h1] at h
    by_cases h2 : source = "lever"
    · rw [if_pos h2] at h
      exact resolve_lever_iff h
    · rw [if_neg h2] at h
      by_cases h3 : source = "workday"
      · rw [if_pos h3] at h
        unfold resolve_workday_url at h
        simp only [Except.ok.injEq, Prod.mk.injEq] at h
        obtain ⟨hr, hb⟩ := h
        subst hr
        subst hb
        simp
      · rw [if_neg h3] at h
        simp only [Except.ok.injEq, Prod.mk.injEq] at h
        obtain ⟨hr, hb⟩ := h
        subst hr
        subst hb
        simp

theorem c9_witness :
    (true = true ↔
      "https://jobs.lever.co/acme/xyz".data ≠ "https://jobs.lever.co/acme/xyz/apply".data) :=
  c9_resolved_iff_changed "https://jobs.lever.co/acme/xyz/apply".data "lever"
    "https://jobs.lever.co/acme/xyz".data true (by rfl)

end CV
